import Mathlib

/-!
Shallow embedding of `dcmp.py` (jftuga/dcmp, class `Dir_Compare`), the
directory-tree comparison engine: exclusion filtering, per-directory
metadata diffing with optional byte-exact content comparison, recursive
tree pairing, the sequential (queue-driven) and parallel (pre-enumerated
twin registry) traversal schedulers, and the statistics counters.

Modelling conventions:
* file contents are finite byte sequences (`List Nat`);
* filesystem paths are component lists (`List String`); `os.path.join d f`
  is `d ++ [f]` and `os.path.basename` is the last component;
* compiled case-insensitive regular expressions are abstracted as boolean
  matchers `String → Bool` (`re.findall` returning a non-empty list is
  `matcher name = true`); case folding is internal to the matcher;
* Python I/O exceptions (`PermissionError`, `NotADirectoryError`,
  `IsADirectoryError`) are an `Except Err` result: an `Except.error`
  carries no rows, no counter increments and no queued work, exactly like
  an exception propagating out of `dir_cmp` before its `return`;
* a Python directory listing (`os.scandir`) yields each child once; the
  model keeps the listing order of the underlying entry list.  Python
  iterates `set` objects in unspecified order; the model fixes the
  insertion (scan) order for those iterations;
* the value stored in `performed_exact_file_cmp[fname]` is `""` (never
  compared) or a `bool`; it is modelled as `Option Bool` with Python
  truthiness `truthy`;
* rendered strings (sizes with `"{:,}"`, dates with `strftime`, the `*`
  markers, `"<DIR>"`) are kept as structured data (`SizeField`,
  `DateField`): rendering is out of the modelled core.
-/

namespace Dcmp

/-- One filesystem object's stat data: symlink flag, permission bits,
byte size and modification time, as captured by `f.stat()` in the scan
loops of `dir_cmp` (src/dcmp.py lines 340-352). -/
structure FileMeta where
  symlink : Bool
  mode : Nat
  size : Nat
  mtime : Nat
deriving DecidableEq, Repr

/-- A filesystem tree: a file with contents, or a directory with a
readability flag (false makes `os.scandir` raise, modelling permission
errors) and a list of named children. -/
inductive FSObj where
  | file (m : FileMeta) (content : List Nat)
  | dir (m : FileMeta) (readable : Bool) (entries : List (String × FSObj))

instance : Inhabited FSObj := ⟨.file ⟨false, 0, 0, 0⟩ []⟩

/-- Whether the object is a directory (`DirEntry.is_dir`). -/
def FSObj.isDir : FSObj → Bool
  | .file _ _ => false
  | .dir _ _ _ => true

/-- Whether the object is a regular file (`DirEntry.is_file`). -/
def FSObj.isFile : FSObj → Bool
  | .file _ _ => true
  | .dir _ _ _ => false

/-- The stat data of the object. -/
def FSObj.meta : FSObj → FileMeta
  | .file m _ => m
  | .dir m _ _ => m

/-- I/O error kinds raised by the listing and file-opening operations. -/
inductive Err where
  | notADirectory
  | permissionDenied
  | isADirectory
deriving DecidableEq, Repr

/-- Listing a directory's immediate children, `os.scandir(dname)`:
fails when the path is not a directory or the directory is unreadable. -/
def scanDir : FSObj → Except Err (List (String × FSObj))
  | .file _ _ => .error .notADirectory
  | .dir _ readable es => if readable then .ok es else .error .permissionDenied

/-- Opening a file for binary reading, `open(fname, 'rb')` followed by
reading everything: opening a directory raises `IsADirectoryError`. -/
def openBytes : FSObj → Except Err (List Nat)
  | .file _ c => .ok c
  | .dir _ _ _ => .error .isADirectory

/-- The run configuration: the command-line options consumed by the core
(`self.args.*`) together with the compiled exclusion lists
(`skip_directories`, `re_skip_directories`, `re_skip_files`).  A pattern
list is non-empty exactly when the corresponding `--exdir` / `--exfile`
option was given (splitting a non-empty option string on `";"` yields at
least one pattern). -/
structure Config where
  recurse : Bool
  exact : Bool
  ignoredate : Bool
  exdot : Bool
  skip_directories : List String
  re_skip_directories : List (String → Bool)
  re_skip_files : List (String → Bool)
  diff : Bool
  same : Bool
  xor : Bool
  one : Bool
  two : Bool
  stats : Bool

/-- A configuration with every option off; concrete configurations are
built from it by record update. -/
def baseCfg : Config :=
  ⟨false, false, false, false, [], [], [], false, false, false, false, false, false⟩

/-- The five statistics counters accumulated in `self.file_stats`. -/
structure Stats where
  same_meta : Nat
  not_same_meta : Nat
  exact_data : Nat
  not_exact_data : Nat
  same_meta_different_data : Nat
deriving DecidableEq, Repr

/-- All counters zero. -/
def Stats.zero : Stats := ⟨0, 0, 0, 0, 0⟩

/-- Pointwise sum of two counter records. -/
def Stats.add (a b : Stats) : Stats :=
  ⟨a.same_meta + b.same_meta, a.not_same_meta + b.not_same_meta,
   a.exact_data + b.exact_data, a.not_exact_data + b.not_exact_data,
   a.same_meta_different_data + b.same_meta_different_data⟩

instance : Add Stats := ⟨Stats.add⟩

/-- Python truthiness of the `exact data` cell: `""` (encoded `none`) and
`False` are falsy, `True` is truthy. -/
def truthy : Option Bool → Bool
  | some true => true
  | _ => false

/-- The statistics increments of one included row, translated from
src/dcmp.py lines 444-455: under `--stats` and when the entry is not a
directory on both sides, an `if/elif/else` chain bumps exactly one of
`same_meta_different_data` / `same_meta` / `not_same_meta`, and a second
`if/else` bumps exactly one of `exact_data` / `not_exact_data`. -/
def statsDelta (stats are_both_dirs same_meta : Bool) (exact_data : Option Bool) : Stats :=
  if stats && !are_both_dirs then
    (if same_meta && !(truthy exact_data) then { Stats.zero with same_meta_different_data := 1 }
     else if same_meta then { Stats.zero with same_meta := 1 }
     else { Stats.zero with not_same_meta := 1 })
    + (if truthy exact_data then { Stats.zero with exact_data := 1 }
       else { Stats.zero with not_exact_data := 1 })
  else Stats.zero

/-- Row-inclusion decision, translated branch by branch from
`Dir_Compare.should_add_row` (src/dcmp.py lines 219-251).  The source
reads `self.args.diff` / `self.args.same` / `self.args.exact`; they are
passed here as the first three parameters. -/
def should_add_row (diff same exact : Bool)
    (same_meta same_data are_both_dirs : Bool) : Bool :=
  if !diff && !same then true
  else if same && !exact && same_meta then true
  else if same && exact && same_meta && same_data then true
  else if diff && !exact && !same_meta then true
  else if diff && exact && !same_data then
    -- the source returns False here when are_both_dirs, otherwise True,
    -- without falling through to the next branch
    if are_both_dirs then false else true
  else if diff && exact && !same_meta then true
  else false

/-- The default chunk size `io.DEFAULT_BUFFER_SIZE` used by
`file_cmp_exact`. -/
def file_cmp_bufsize : Nat := 8192

/-- Byte-for-byte file comparison, translated from
`Dir_Compare.file_cmp_exact` (src/dcmp.py lines 196-215): read one chunk
of `bufsize` bytes from each stream in lock-step; a differing chunk pair
returns `False` at once; an empty first chunk (both streams exhausted,
since the chunks compared equal) returns `True`. -/
def file_cmp_exact (bufsize : Nat) (l1 l2 : List Nat) : Bool :=
  if l1.take bufsize ≠ l2.take bufsize then false
  else if h : (l1.take bufsize).isEmpty then true
  else file_cmp_exact bufsize (l1.drop bufsize) (l2.drop bufsize)
termination_by l1.length
decreasing_by
  simp only [List.isEmpty_iff, List.take_eq_nil_iff, not_or] at h
  simp only [List.length_drop]
  exact Nat.sub_lt (List.length_pos.mpr h.2) (Nat.pos_of_ne_zero h.1)

/-- Whether the name's first character is `"."`, the test
`"." == obj_name[0]` (scandir names are never empty). -/
def dotFirst (s : String) : Bool := s.data.head? == some '.'

/-- Membership test against a compiled pattern list, translated from the
nested function `_in_exclusion_list` of `dir_cmp` (src/dcmp.py lines
310-320): true when any pattern finds a match in the name. -/
def in_exclusion_list (fname : String) (re_list : List (String → Bool)) : Bool :=
  re_list.any (fun skip => skip fname)

/-- Exclusion decision, translated from the nested function
`should_not_exclude` of `dir_cmp` (src/dcmp.py lines 322-336); `true`
means the entry is kept.  The file branch is entered when `--exfile` was
given (a non-empty pattern list), the directory branch when `--exdir`
was given. -/
def should_not_exclude (cfg : Config) (obj_name : String)
    (is_file is_dir : Bool) : Bool :=
  if cfg.exdot && dotFirst obj_name then false
  else if is_file && !cfg.re_skip_files.isEmpty then
    !(in_exclusion_list obj_name cfg.re_skip_files)
  else if is_dir && !cfg.re_skip_directories.isEmpty then
    !(in_exclusion_list obj_name cfg.re_skip_directories)
  else true

/-- The metadata tuple `(is_dir, is_file, is_symlink, mode, size, mtime)`
stored in the snapshot dictionaries `d1` / `d2` (src/dcmp.py lines 343,
350); `mtime` is already the sentinel 0 when `--ignoredate` is active. -/
structure EntryMeta where
  is_dir : Bool
  is_file : Bool
  is_symlink : Bool
  mode : Nat
  size : Nat
  mtime : Nat
deriving DecidableEq, Repr

/-- The metadata tuple captured for one scanned child. -/
def entryMeta (cfg : Config) (o : FSObj) : EntryMeta :=
  ⟨o.isDir, o.isFile, o.meta.symlink, o.meta.mode, o.meta.size,
   if cfg.ignoredate then 0 else o.meta.mtime⟩

/-- One side's entry snapshot: the scan loop of `dir_cmp` (src/dcmp.py
lines 340-352) keeps each child passing `should_not_exclude` with its
metadata tuple.  The filesystem object itself is carried along because
the source later re-opens the child by path; paths denote fixed objects
in this immutable model.  Real directories list each name once, so the
association list is keyed uniquely. -/
def snapshot (cfg : Config) (es : List (String × FSObj)) :
    List (String × EntryMeta × FSObj) :=
  es.filterMap (fun nf =>
    if should_not_exclude cfg nf.1 nf.2.isFile nf.2.isDir then
      some (nf.1, entryMeta cfg nf.2, nf.2)
    else none)

/-- Names present in both snapshots, `s1.intersection(s2)` over the key
sets (src/dcmp.py line 356); iterated in first-side scan order. -/
def same_fnames (k1 k2 : List String) : List String :=
  k1.dedup.filter (fun f => f ∈ k2)

/-- Names present only in the first snapshot, `s1.difference(s2)`. -/
def d1_only (k1 k2 : List String) : List String :=
  k1.dedup.filter (fun f => f ∉ k2)

/-- Names present only in the second snapshot, `s2.difference(s1)`. -/
def d2_only (k1 k2 : List String) : List String :=
  k2.dedup.filter (fun f => f ∉ k1)

/-- A size cell of a comparison row: a byte count with its `*` marker, the
`"<DIR>"` marker, or the empty cell of an exclusive row. -/
inductive SizeField where
  | num (n : Nat) (star : Bool)
  | dirMark
  | blank
deriving DecidableEq, Repr

/-- A date cell of a comparison row: a timestamp with its `*` marker, or
the empty cell (`--ignoredate`, or the other side of an exclusive row). -/
inductive DateField where
  | time (t : Nat) (star : Bool)
  | blank
deriving DecidableEq, Repr

/-- The `same meta` cell: a boolean for common names, `"Only in n"` for
exclusive rows. -/
inductive MetaField where
  | flag (b : Bool)
  | onlyIn (side : Nat)
deriving DecidableEq, Repr

/-- One row of the per-directory result table, with rendered strings kept
as structured data.  `exact_data` is `none` for the `""` marker (never
compared) and `some b` for an actual byte comparison verdict. -/
structure Row where
  fname : String
  same_meta : MetaField
  size1 : SizeField
  size2 : SizeField
  date1 : DateField
  date2 : DateField
  exact_data : Option Bool
deriving DecidableEq, Repr

/-- Rows for one side's exclusive names, translated from the nested
function `add_exclusive_file` of `dir_cmp` (src/dcmp.py lines 362-374):
sizes show `"<DIR>"` for directories, the other side's cells stay empty,
and the `exact data` cell is always empty. -/
def add_exclusive_file (exclusive : List String)
    (d : List (String × EntryMeta × FSObj)) (meta_val : Nat) : List Row :=
  exclusive.filterMap (fun fname =>
    (List.lookup fname d).map (fun p =>
      let file_sz : SizeField := if p.1.is_dir then .dirMark else .num p.1.size false
      let fulldate : DateField := .time p.1.mtime false
      if meta_val = 1 then
        ⟨fname, .onlyIn 1, file_sz, .blank, fulldate, .blank, none⟩
      else
        ⟨fname, .onlyIn meta_val, .blank, file_sz, .blank, fulldate, none⟩))

/-- Conditional byte comparison for one common name, translated from
src/dcmp.py lines 427-431: contents are compared when `--exact` is on and
the *first* side's entry is not a directory (`not d1[fname][0]`); the
second side is opened without checking its kind. -/
def evalExactData (cfg : Config) (e1 : EntryMeta) (o1 o2 : FSObj) :
    Except Err (Option Bool) :=
  if cfg.exact && !e1.is_dir then
    match openBytes o1 with
    | .error e => .error e
    | .ok c1 =>
      match openBytes o2 with
      | .error e => .error e
      | .ok c2 => .ok (some (file_cmp_exact file_cmp_bufsize c1 c2))
  else .ok none

/-- Whether the conditional byte comparison was actually started: `ok
none` is the untouched `""` marker; a verdict or an I/O error means both
files were opened and read. -/
def exactAttempted : Except Err (Option Bool) → Bool
  | .ok none => false
  | _ => true

/-- Comparison of one common, non-recursed name, translated from the body
of the `for fname in same_fnames` loop (src/dcmp.py lines 394-455):
metadata equality, `*` markers for the larger size and newer date,
optional byte comparison, the row-inclusion decision, and the statistics
increments for an included row. -/
def compareCommonEntry (cfg : Config) (fname : String)
    (e1 : EntryMeta) (o1 : FSObj) (e2 : EntryMeta) (o2 : FSObj) :
    Except Err (Option Row × Stats) :=
  let same_meta := decide (e1 = e2)
  match evalExactData cfg e1 o1 o2 with
  | .error e => .error e
  | .ok exact_data =>
    let f1_sz : SizeField :=
      if e1.is_dir then .dirMark
      else .num e1.size (!same_meta && decide (e2.size < e1.size))
    let f2_sz : SizeField :=
      if e2.is_dir then .dirMark
      else .num e2.size (!same_meta && decide (e1.size < e2.size))
    let date1 : DateField :=
      if cfg.ignoredate then .blank
      else .time e1.mtime (!same_meta && decide (e2.mtime < e1.mtime))
    let date2 : DateField :=
      if cfg.ignoredate then .blank
      else .time e2.mtime (!same_meta && decide (e1.mtime < e2.mtime))
    let are_both_dirs := e1.is_dir && e2.is_dir
    let same_data := exact_data.getD false
    if should_add_row cfg.diff cfg.same cfg.exact same_meta same_data are_both_dirs then
      .ok (some ⟨fname, .flag same_meta, f1_sz, f2_sz, date1, date2, exact_data⟩,
           statsDelta cfg.stats are_both_dirs same_meta exact_data)
    else .ok (none, Stats.zero)

/-- A queued unit of recursive work: the two joined paths (what the
source's `dir_queue` / `all_twins` store) together with the directory
objects those paths denote in the immutable filesystem model. -/
structure QItem where
  p1 : List String
  p2 : List String
  t1 : FSObj
  t2 : FSObj

/-- What `dir_cmp` returns: either the bare empty table of the
`skip_directories` early return (src/dcmp.py lines 297-301) or the
`(table, dname1, dname2)` triple of the normal return (line 457). -/
inductive DirCmpRet where
  | tableOnly (rows : List Row)
  | full (rows : List Row) (dname1 dname2 : List String)

/-- Full outcome of one `dir_cmp` call: its return value, the statistics
deltas applied to `file_stats`, and the pairs put on `dir_queue`. -/
structure CmpOut where
  ret : DirCmpRet
  stats : Stats
  queued : List QItem

/-- The rows of the returned table. -/
def CmpOut.rows (o : CmpOut) : List Row :=
  match o.ret with
  | .tableOnly rs => rs
  | .full rs _ _ => rs

/-- `os.path.basename`: the last path component. -/
def basename (p : List String) : String := p.getLastD ""

/-- Pair each common name with both sides' snapshot entries, as the loop
body's `d1[fname]` / `d2[fname]` dictionary accesses do. -/
def zipCommon (d1 d2 : List (String × EntryMeta × FSObj)) (names : List String) :
    List (String × (EntryMeta × FSObj) × (EntryMeta × FSObj)) :=
  names.filterMap (fun f =>
    match List.lookup f d1, List.lookup f d2 with
    | some a, some b => some (f, a, b)
    | _, _ => none)

/-- The `for fname in same_fnames` loop of `dir_cmp` (src/dcmp.py lines
386-455): a name that is a directory on both sides is queued for
recursion under `--recurse` and skipped; under `--xor` / `-1` / `-2` the
name is skipped entirely; otherwise the entry pair is compared.  An I/O
error aborts the whole call, as a Python exception would. -/
def processCommon (cfg : Config) (p1 p2 : List String) :
    List (String × (EntryMeta × FSObj) × (EntryMeta × FSObj)) →
    Except Err (List Row × Stats × List QItem)
  | [] => .ok ([], Stats.zero, [])
  | (fname, (e1, o1), (e2, o2)) :: rest =>
    if cfg.recurse && e1.is_dir && e2.is_dir then
      match processCommon cfg p1 p2 rest with
      | .error e => .error e
      | .ok (rs, st, q) => .ok (rs, st, ⟨p1 ++ [fname], p2 ++ [fname], o1, o2⟩ :: q)
    else if cfg.xor || cfg.one || cfg.two then
      processCommon cfg p1 p2 rest
    else
      match compareCommonEntry cfg fname e1 o1 e2 o2 with
      | .error e => .error e
      | .ok (orow, st1) =>
        match processCommon cfg p1 p2 rest with
        | .error e => .error e
        | .ok (rs, st, q) => .ok (orow.toList ++ rs, st1 + st, q)

/-- One directory-pair comparison, translated from `Dir_Compare.dir_cmp`
(src/dcmp.py lines 280-457): exact-membership skip of `skip_directories`
against either basename (bare-table early return, before any scan), the
two filtered scans, the name-set split, exclusive-side rows according to
the selection mode, and the common-name loop. -/
def dir_cmp (cfg : Config) (p1 p2 : List String) (t1 t2 : FSObj) :
    Except Err CmpOut :=
  if basename p1 ∈ cfg.skip_directories then
    .ok ⟨.tableOnly [], Stats.zero, []⟩
  else if basename p2 ∈ cfg.skip_directories then
    .ok ⟨.tableOnly [], Stats.zero, []⟩
  else
    match scanDir t1 with
    | .error e => .error e
    | .ok es1 =>
      match scanDir t2 with
      | .error e => .error e
      | .ok es2 =>
        let d1 := snapshot cfg es1
        let d2 := snapshot cfg es2
        let k1 := d1.map (·.1)
        let k2 := d2.map (·.1)
        let exclusiveRows :=
          if cfg.one then add_exclusive_file (d1_only k1 k2) d1 1
          else if cfg.two then add_exclusive_file (d2_only k1 k2) d2 2
          else if !cfg.same then
            add_exclusive_file (d1_only k1 k2) d1 1
              ++ add_exclusive_file (d2_only k1 k2) d2 2
          else []
        match processCommon cfg p1 p2 (zipCommon d1 d2 (same_fnames k1 k2)) with
        | .error e => .error e
        | .ok (crows, st, queued) =>
          .ok ⟨.full (exclusiveRows ++ crows) p1 p2, st, queued⟩

/-- A successful association-list lookup finds a member pair. -/
theorem lookup_mem {α : Type} {l : List (String × α)} {k : String} {v : α}
    (h : List.lookup k l = some v) : (k, v) ∈ l := by
  induction l with
  | nil => cases h
  | cons a as ih =>
    obtain ⟨ka, va⟩ := a
    rw [List.lookup_cons] at h
    split at h
    · cases h
      rename_i hbeq
      have hk : k = ka := by simpa using hbeq
      subst hk
      exact List.mem_cons_self _ _
    · exact List.mem_cons_of_mem _ (ih h)

/-- A pair member makes the lookup of its key succeed. -/
theorem lookup_isSome_of_mem {α : Type} {l : List (String × α)} {k : String}
    {v : α} (h : (k, v) ∈ l) : (List.lookup k l).isSome = true := by
  induction l with
  | nil => cases h
  | cons a as ih =>
    obtain ⟨ka, va⟩ := a
    rw [List.lookup_cons]
    rcases List.mem_cons.mp h with he | hm
    · cases he
      simp
    · split
      · simp
      · exact ih hm

/-- Every filesystem object has positive size. -/
theorem FSObj.sizeOf_pos (t : FSObj) : 0 < sizeOf t := by
  cases t <;> simp_arith

/-- A child found by lookup is smaller than the directory holding it. -/
theorem sizeOf_lookup_lt {es : List (String × FSObj)} {d : String} {o : FSObj}
    (h : List.lookup d es = some o) (m : FileMeta) (r : Bool) :
    sizeOf o < sizeOf (FSObj.dir m r es) := by
  have h1 : sizeOf (d, o) < sizeOf es := List.sizeOf_lt_of_mem (lookup_mem h)
  have h2 : sizeOf (d, o) = 1 + sizeOf d + sizeOf o := Prod.mk.sizeOf_spec d o
  have h3 : sizeOf (FSObj.dir m r es) = 1 + sizeOf m + sizeOf r + sizeOf es :=
    FSObj.dir.sizeOf_spec m r es
  omega

/-- The child of a directory reached by name; `default` is never reached
when the name is known to exist (twin discovery only descends into names
listed by both sides). -/
def childD (t : FSObj) (d : String) : FSObj :=
  match t with
  | .file _ _ => default
  | .dir _ _ es => (List.lookup d es).getD default

/-- The set of subdirectory names among scanned children, in scan order
and deduplicated. -/
def subNames (es : List (String × FSObj)) : List String :=
  (es.filterMap (fun nf => if nf.2.isDir then some nf.1 else none)).dedup

/-- The set of subdirectory names of one directory, translated from the
`gen_folder` lambda of `find_all_twins` (src/dcmp.py line 268):
`set(f.name for f in os.scandir(dname) if f.is_dir())`, kept in scan
order and deduplicated; no exclusion filter is applied. -/
def gen_folder (t : FSObj) : Except Err (List String) :=
  match scanDir t with
  | .error e => .error e
  | .ok es => .ok (subNames es)

/-- Ascending sort, Python's `sorted(...)`. -/
def sortNames (l : List String) : List String := l.insertionSort (· ≤ ·)

/-- A successful scan exposes the directory's entries. -/
theorem scanDir_ok_dir {t : FSObj} {es : List (String × FSObj)}
    (h : scanDir t = .ok es) : ∃ m, t = FSObj.dir m true es := by
  cases t with
  | file m c => cases h
  | dir m r es0 =>
    rw [scanDir] at h
    split at h
    · cases h
      exact ⟨m, by simp [*]⟩
    · cases h

/-- A name listed by `gen_folder` denotes a strictly smaller child. -/
theorem childD_size_of_gen_folder {t : FSObj} {n : List String}
    (h : gen_folder t = .ok n) {d : String} (hd : d ∈ n) :
    sizeOf (childD t d) < sizeOf t := by
  rw [gen_folder] at h
  cases hscan : scanDir t with
  | error e => rw [hscan] at h; cases h
  | ok es =>
    rw [hscan] at h
    cases h
    obtain ⟨m, rfl⟩ := scanDir_ok_dir hscan
    rw [subNames, List.mem_dedup, List.mem_filterMap] at hd
    obtain ⟨nf, hnf, hval⟩ := hd
    have hname : nf.1 = d := by
      by_cases hdir : nf.2.isDir = true
      · rw [if_pos hdir] at hval; cases hval; rfl
      · rw [if_neg hdir] at hval; cases hval
    have hmem : (d, nf.2) ∈ es := by
      rw [← hname]; exact hnf
    have hsome := lookup_isSome_of_mem hmem
    obtain ⟨o, ho⟩ := Option.isSome_iff_exists.mp hsome
    show sizeOf ((List.lookup d es).getD default) < _
    rw [ho]
    exact sizeOf_lookup_lt ho m true

mutual

/-- Twin discovery, translated from `Dir_Compare.find_all_twins`
(src/dcmp.py lines 255-276): at each level, the intersection of the two
sides' subdirectory name sets (no exclusion filter), sorted ascending;
each matched pair is appended to the registry and then descended into
(`twinsLoop` is the `for d in same_dnames` loop).  As with the work
queue, each stored path is paired with the object it denotes. -/
def find_all_twins (p1 p2 : List String) (t1 t2 : FSObj) :
    Except Err (List QItem) :=
  match h1 : gen_folder t1 with
  | .error e => .error e
  | .ok n1 =>
    match gen_folder t2 with
    | .error e => .error e
    | .ok n2 =>
      twinsLoop p1 p2 t1 t2 (sortNames (n1.filter (fun d => d ∈ n2)))
        (fun d hd => by
          have hd1 : d ∈ n1.filter (fun x => decide (x ∈ n2)) :=
            (List.perm_insertionSort _ _).mem_iff.mp hd
          exact childD_size_of_gen_folder h1 (List.mem_filter.mp hd1).1)
termination_by (sizeOf t1, 1, 0)
decreasing_by
  exact Prod.Lex.right _ (Prod.Lex.left _ _ (by omega))

/-- The body of `find_all_twins`' loop: append the pair for the current
common subdirectory name, then its recursively discovered pairs, then
the remaining names' pairs.  The proof argument only serves termination. -/
def twinsLoop (p1 p2 : List String) (t1 t2 : FSObj) (names : List String)
    (hsub : ∀ d ∈ names, sizeOf (childD t1 d) < sizeOf t1) :
    Except Err (List QItem) :=
  match names with
  | [] => .ok []
  | d :: rest =>
    match find_all_twins (p1 ++ [d]) (p2 ++ [d]) (childD t1 d) (childD t2 d) with
    | .error e => .error e
    | .ok sub =>
      match twinsLoop p1 p2 t1 t2 rest
          (fun x hx => hsub x (List.mem_cons_of_mem _ hx)) with
      | .error e => .error e
      | .ok more =>
        .ok (⟨p1 ++ [d], p2 ++ [d], childD t1 d, childD t2 d⟩ :: (sub ++ more))
termination_by (sizeOf t1, 0, names.length)
decreasing_by
  · exact Prod.Lex.left _ _ (hsub d (List.mem_cons_self _ _))
  · exact Prod.Lex.right _ (Prod.Lex.right _ (by simp [List.length_cons]))

end

mutual

/-- Well-formedness of a model tree: every directory is readable and
lists pairwise distinct names — both properties every real scanned
directory tree has. -/
def WF : FSObj → Bool
  | .file _ _ => true
  | .dir _ r es => r && decide ((es.map Prod.fst).Nodup) && WFList es
termination_by t => sizeOf t
decreasing_by
  simp

/-- Well-formedness of a directory's children. -/
def WFList : List (String × FSObj) → Bool
  | [] => true
  | (_name, o) :: rest => WF o && WFList rest
termination_by l => sizeOf l
decreasing_by
  · simp
    omega
  · simp

end

/-- The queued items of the common-name loop: exactly the common names
that are directories on both sides (under `--recurse`), in loop order. -/
theorem processCommon_ok_queued (cfg : Config) (p1 p2 : List String) :
    ∀ (triples : List (String × (EntryMeta × FSObj) × (EntryMeta × FSObj)))
      (rs : List Row) (st : Stats) (q : List QItem),
      processCommon cfg p1 p2 triples = .ok (rs, st, q) →
      q = (triples.filter
            (fun tr => cfg.recurse && tr.2.1.1.is_dir && tr.2.2.1.is_dir)).map
            (fun tr => ⟨p1 ++ [tr.1], p2 ++ [tr.1], tr.2.1.2, tr.2.2.2⟩) := by
  intro triples
  induction triples with
  | nil =>
    intro rs st q h
    rw [processCommon] at h
    cases h
    rfl
  | cons tr rest ih =>
    obtain ⟨fname, ⟨e1, o1⟩, ⟨e2, o2⟩⟩ := tr
    intro rs st q h
    rw [processCommon] at h
    split at h
    · rename_i hcond
      cases hrest : processCommon cfg p1 p2 rest with
      | error e => rw [hrest] at h; cases h
      | ok v =>
        obtain ⟨rs0, st0, q0⟩ := v
        rw [hrest] at h
        cases h
        rw [List.filter_cons, if_pos (by simpa using hcond)]
        rw [List.map_cons]
        exact congrArg _ (ih _ _ _ hrest)
    · split at h
      · rename_i hcond _
        cases hrest : processCommon cfg p1 p2 rest with
        | error e => rw [hrest] at h; cases h
        | ok v =>
          obtain ⟨rs0, st0, q0⟩ := v
          rw [hrest] at h
          cases h
          rw [List.filter_cons, if_neg (by simpa using hcond)]
          exact ih _ _ _ hrest
      · rename_i hcond _
        cases hcmp : compareCommonEntry cfg fname e1 o1 e2 o2 with
        | error e => rw [hcmp] at h; cases h
        | ok v =>
          obtain ⟨orow, st1⟩ := v
          rw [hcmp] at h
          cases hrest : processCommon cfg p1 p2 rest with
          | error e => rw [hrest] at h; cases h
          | ok v2 =>
            obtain ⟨rs0, st0, q0⟩ := v2
            rw [hrest] at h
            cases h
            rw [List.filter_cons, if_neg (by simpa using hcond)]
            exact ih _ _ _ hrest

/-- A snapshot entry comes from a scanned child with the same name. -/
theorem snapshot_mem {cfg : Config} {es : List (String × FSObj)} {f : String}
    {em : EntryMeta} {o : FSObj} (h : (f, em, o) ∈ snapshot cfg es) :
    (f, o) ∈ es := by
  rw [snapshot, List.mem_filterMap] at h
  obtain ⟨nf, hnf, hval⟩ := h
  split at hval
  · cases hval
    simpa using hnf
  · cases hval

/-- A triple produced by `zipCommon` records successful lookups of a
listed name. -/
theorem zipCommon_mem {d1 d2 : List (String × EntryMeta × FSObj)}
    {names : List String} {tr : String × (EntryMeta × FSObj) × (EntryMeta × FSObj)}
    (h : tr ∈ zipCommon d1 d2 names) :
    tr.1 ∈ names ∧ List.lookup tr.1 d1 = some tr.2.1
      ∧ List.lookup tr.1 d2 = some tr.2.2 := by
  rw [zipCommon, List.mem_filterMap] at h
  obtain ⟨f, hf, hval⟩ := h
  cases h1 : List.lookup f d1 with
  | none => rw [h1] at hval; cases hval
  | some a =>
    cases h2 : List.lookup f d2 with
    | none => rw [h1, h2] at hval; cases hval
    | some b =>
      rw [h1, h2] at hval
      cases hval
      exact ⟨hf, h1, h2⟩

/-- The names of `zipCommon`'s triples form a sublist of the name list. -/
theorem zipCommon_names_sublist (d1 d2 : List (String × EntryMeta × FSObj)) :
    ∀ names : List String, ((zipCommon d1 d2 names).map (·.1)).Sublist names := by
  intro names
  induction names with
  | nil => simp [zipCommon]
  | cons f rest ih =>
    rw [zipCommon, List.filterMap_cons]
    cases h1 : List.lookup f d1 with
    | none =>
      simp only [h1]
      exact (ih).cons f
    | some a =>
      cases h2 : List.lookup f d2 with
      | none =>
        simp only [h1, h2]
        exact (ih).cons f
      | some b =>
        simp only [h1, h2, List.map_cons]
        exact List.Sublist.cons₂ f ih

/-- Distinct elements each occurring in a list have total size at most
the list's size. -/
theorem sizeOf_sum_le_of_nodup_subset {α : Type} [SizeOf α] :
    ∀ (l sub : List α), sub.Nodup → (∀ a ∈ sub, a ∈ l) →
      (sub.map (fun a => sizeOf a)).sum ≤ sizeOf l := by
  classical
  intro l
  induction l with
  | nil =>
    intro sub hn hs
    cases sub with
    | nil => simp
    | cons a as => exact absurd (hs a (List.mem_cons_self _ _)) (List.not_mem_nil a)
  | cons x l' ih =>
    intro sub hn hs
    by_cases hx : x ∈ sub
    · have hperm : sub.Perm (x :: sub.erase x) := List.perm_cons_erase hx
      have hsum : (sub.map (fun a => sizeOf a)).sum
          = sizeOf x + ((sub.erase x).map (fun a => sizeOf a)).sum := by
        rw [(hperm.map _).sum_eq]
        simp
      have hs' : ∀ a ∈ sub.erase x, a ∈ l' := by
        intro a ha
        have h1 := (hn.mem_erase_iff).mp ha
        rcases List.mem_cons.mp (hs a h1.2) with he | hm
        · exact absurd he h1.1
        · exact hm
      have hle := ih (sub.erase x) (hn.erase x) hs'
      have hcons : sizeOf (x :: l') = 1 + sizeOf x + sizeOf l' :=
        List.cons.sizeOf_spec x l'
      omega
    · have hs' : ∀ a ∈ sub, a ∈ l' := by
        intro a ha
        rcases List.mem_cons.mp (hs a ha) with he | hm
        · subst he; exact absurd ha hx
        · exact hm
      have hle := ih sub hn hs'
      have hcons : sizeOf (x :: l') = 1 + sizeOf x + sizeOf l' :=
        List.cons.sizeOf_spec x l'
      omega

/-- The common-name list is duplicate-free. -/
theorem same_fnames_nodup (k1 k2 : List String) : (same_fnames k1 k2).Nodup :=
  (List.nodup_dedup k1).filter _

/-- The total size of the subtrees queued by one `dir_cmp` call is
strictly below the size of the first scanned tree: the queued pairs are
children of distinct common names. -/
theorem dir_cmp_queued_sum_lt {cfg : Config} {p1 p2 : List String}
    {t1 t2 : FSObj} {out : CmpOut} (h : dir_cmp cfg p1 p2 t1 t2 = .ok out) :
    ((out.queued.map (fun i => sizeOf i.t1)).sum) < sizeOf t1 := by
  rw [dir_cmp] at h
  split at h
  · cases h
    simpa using FSObj.sizeOf_pos t1
  · split at h
    · cases h
      simpa using FSObj.sizeOf_pos t1
    · cases hs1 : scanDir t1 with
      | error e => rw [hs1] at h; cases h
      | ok es1 =>
        rw [hs1] at h
        cases hs2 : scanDir t2 with
        | error e => rw [hs2] at h; cases h
        | ok es2 =>
          rw [hs2] at h
          simp only [] at h
          cases hpc : processCommon cfg p1 p2
              (zipCommon (snapshot cfg es1) (snapshot cfg es2)
                (same_fnames ((snapshot cfg es1).map (·.1))
                  ((snapshot cfg es2).map (·.1)))) with
          | error e => rw [hpc] at h; cases h
          | ok v =>
            obtain ⟨crows, st, queued⟩ := v
            rw [hpc] at h
            cases h
            have hq := processCommon_ok_queued cfg p1 p2 _ _ _ _ hpc
            obtain ⟨m, rfl⟩ := scanDir_ok_dir hs1
            set d1 := snapshot cfg es1 with hd1
            set d2 := snapshot cfg es2 with hd2
            set names := same_fnames (d1.map (·.1)) (d2.map (·.1)) with hnames
            set zf := (zipCommon d1 d2 names).filter
              (fun tr => cfg.recurse && tr.2.1.1.is_dir && tr.2.2.1.is_dir) with hzf
            show ((queued.map (fun i => sizeOf i.t1)).sum) < _
            have hqs : queued.map (fun i => sizeOf i.t1)
                = zf.map (fun tr => sizeOf tr.2.1.2) := by
              rw [hq, List.map_map]
              rfl
            -- the pairs (name, left child) of the queued triples
            have hsub : ∀ p ∈ zf.map (fun tr => (tr.1, tr.2.1.2)), p ∈ es1 := by
              intro p hp
              rw [List.mem_map] at hp
              obtain ⟨tr, htr, rfl⟩ := hp
              have htr' : tr ∈ zipCommon d1 d2 names :=
                List.mem_of_mem_filter htr
              have hz := zipCommon_mem htr'
              have hmem : (tr.1, tr.2.1) ∈ d1 := lookup_mem hz.2.1
              exact snapshot_mem (by simpa using hmem)
            have hnd : (zf.map (fun tr => (tr.1, tr.2.1.2))).Nodup := by
              have hsl : (zf.map (·.1)).Sublist names := by
                have h1 : zf.Sublist (zipCommon d1 d2 names) := List.filter_sublist _
                exact (h1.map (·.1)).trans (zipCommon_names_sublist d1 d2 names)
              have hnn : (zf.map (·.1)).Nodup :=
                hsl.nodup (same_fnames_nodup _ _)
              have : ((zf.map (fun tr => (tr.1, tr.2.1.2))).map Prod.fst).Nodup := by
                rw [List.map_map]
                exact hnn
              exact this.of_map _
            have hle1 : ((zf.map (fun tr => (tr.1, tr.2.1.2))).map
                (fun a => sizeOf a)).sum ≤ sizeOf es1 :=
              sizeOf_sum_le_of_nodup_subset es1 _ hnd hsub
            have hle2 : (zf.map (fun tr => sizeOf tr.2.1.2)).sum
                ≤ ((zf.map (fun tr => (tr.1, tr.2.1.2))).map (fun a => sizeOf a)).sum := by
              rw [List.map_map]
              refine List.sum_le_sum ?_
              intro tr _
              simp only [Function.comp]
              have := Prod.mk.sizeOf_spec tr.1 tr.2.1.2
              omega
            have hlt : sizeOf es1 < sizeOf (FSObj.dir m true es1) := by
              have := FSObj.dir.sizeOf_spec m true es1
              omega
            rw [hqs]
            omega

/-- The sequential scheduler's queue drain, translated from src/dcmp.py
lines 128-132: pop the front pair, compare it, output its rows, with the
pairs it queued joining the back of the queue (`queue.Queue` is FIFO);
repeat until the queue is empty.  An I/O error aborts the run as the
uncaught Python exception would. -/
def drainQueue (cfg : Config) (q : List QItem) : Except Err (List Row) :=
  match q with
  | [] => .ok []
  | i :: rest =>
    match h : dir_cmp cfg i.p1 i.p2 i.t1 i.t2 with
    | .error e => .error e
    | .ok out =>
      match drainQueue cfg (rest ++ out.queued) with
      | .error e => .error e
      | .ok rs => .ok (out.rows ++ rs)
termination_by (q.map (fun i => sizeOf i.t1)).sum
decreasing_by
  have hq := dir_cmp_queued_sum_lt h
  simp only [List.map_append, List.sum_append, List.map_cons, List.sum_cons]
  omega

mutual

/-- Reference depth-first collection of all rows of one pair's subtree:
the pair's own rows followed by its queued children's subtree rows in
order.  This is a proof device relating the two schedulers, not source
code. -/
def treeRows (cfg : Config) (i : QItem) : Except Err (List Row) :=
  match h : dir_cmp cfg i.p1 i.p2 i.t1 i.t2 with
  | .error e => .error e
  | .ok out =>
    match treeRowsList cfg out.queued with
    | .error e => .error e
    | .ok rs => .ok (out.rows ++ rs)
termination_by (sizeOf i.t1, 1)
decreasing_by
  have hq := dir_cmp_queued_sum_lt h
  rcases Nat.lt_or_ge ((out.queued.map (fun i => sizeOf i.t1)).sum + 1)
      (sizeOf i.t1) with hlt | hge
  · exact Prod.Lex.left _ _ hlt
  · have heq : (out.queued.map (fun i => sizeOf i.t1)).sum + 1 = sizeOf i.t1 := by
      omega
    rw [heq]
    exact Prod.Lex.right _ (by omega)

/-- Depth-first subtree rows of a list of pairs, concatenated. -/
def treeRowsList (cfg : Config) (q : List QItem) : Except Err (List Row) :=
  match q with
  | [] => .ok []
  | i :: rest =>
    match treeRows cfg i with
    | .error e => .error e
    | .ok a =>
      match treeRowsList cfg rest with
      | .error e => .error e
      | .ok b => .ok (a ++ b)
termination_by ((q.map (fun i => sizeOf i.t1)).sum + 1, 0)
decreasing_by
  · apply Prod.Lex.left
    have := FSObj.sizeOf_pos i.t1
    simp only [List.map_cons, List.sum_cons]
    omega
  · apply Prod.Lex.left
    have := FSObj.sizeOf_pos i.t1
    simp only [List.map_cons, List.sum_cons]
    omega

end

/-- The parallel scheduler's per-pair work: compare every registry pair,
collecting rows (the pool's completion order is nondeterministic in the
source; the registry order is one representative interleaving — the
claim under study is about row multisets). -/
def runPairs (cfg : Config) : List QItem → Except Err (List Row)
  | [] => .ok []
  | i :: rest =>
    match dir_cmp cfg i.p1 i.p2 i.t1 i.t2 with
    | .error e => .error e
    | .ok out =>
      match runPairs cfg rest with
      | .error e => .error e
      | .ok rs => .ok (out.rows ++ rs)

/-- The sequential scheduler (src/dcmp.py lines 124-132): compare the
root pair, then drain the work queue it seeded. -/
def sequentialRun (cfg : Config) (p1 p2 : List String) (t1 t2 : FSObj) :
    Except Err (List Row) :=
  match dir_cmp cfg p1 p2 t1 t2 with
  | .error e => .error e
  | .ok out =>
    match drainQueue cfg out.queued with
    | .error e => .error e
    | .ok rs => .ok (out.rows ++ rs)

/-- The parallel scheduler (src/dcmp.py lines 124, 137-144): compare the
root pair, enumerate the full twin registry, then compare every
registry pair in the worker pool. -/
def parallelRun (cfg : Config) (p1 p2 : List String) (t1 t2 : FSObj) :
    Except Err (List Row) :=
  match dir_cmp cfg p1 p2 t1 t2 with
  | .error e => .error e
  | .ok out =>
    match find_all_twins p1 p2 t1 t2 with
    | .error e => .error e
    | .ok tw =>
      match runPairs cfg tw with
      | .error e => .error e
      | .ok rs => .ok (out.rows ++ rs)

/-! ### Claim C1 — statistics increments for an included, non-directory row -/

/-- C1 counterexample: with statistics on, not a directory pair,
`same_meta = true` and content evaluated as not identical, the code
increments neither `same_meta` nor `not_same_meta` (the `elif` chain
bumps `same_meta_different_data` instead), refuting the claim that
exactly one of `same_meta` / `not_same_meta` is always incremented. -/
theorem statsDelta_cex :
    (statsDelta true false true (some false)).same_meta = 0
    ∧ (statsDelta true false true (some false)).not_same_meta = 0
    ∧ (statsDelta true false true (some false)).same_meta_different_data = 1 := by
  decide

/-- C1 (amended): for every included row with statistics requested and
the entry not a directory on both sides, the comparator increments
exactly one of `same_meta_different_data` / `same_meta` /
`not_same_meta`: `same_meta_different_data` when `same_meta` holds and
the content was not evaluated as identical, `same_meta` when `same_meta`
holds and the content was evaluated as identical, and `not_same_meta`
when `same_meta` fails; independently it increments exactly one of
`exact_data` / `not_exact_data` according to whether the content was
evaluated as identical. -/
theorem statsDelta_amended :
    ∀ (sm : Bool) (ed : Option Bool),
      ((statsDelta true false sm ed).same_meta_different_data
        + (statsDelta true false sm ed).same_meta
        + (statsDelta true false sm ed).not_same_meta = 1)
      ∧ ((statsDelta true false sm ed).same_meta_different_data = 1
          ↔ (sm = true ∧ truthy ed = false))
      ∧ ((statsDelta true false sm ed).same_meta = 1
          ↔ (sm = true ∧ truthy ed = true))
      ∧ ((statsDelta true false sm ed).not_same_meta = 1 ↔ sm = false)
      ∧ ((statsDelta true false sm ed).exact_data
          + (statsDelta true false sm ed).not_exact_data = 1)
      ∧ ((statsDelta true false sm ed).exact_data = 1 ↔ truthy ed = true) := by
  decide

/-! ### Claim C5 — the row-inclusion policy table -/

/-- The row-inclusion policy exactly as the claim states it: default
mode always includes; same-only includes iff `same_meta` (and
additionally `exact_data` when exact comparison is on); diff-only
without exact comparison includes iff `¬same_meta`; diff-only with
exact comparison includes iff `(¬exact_data ∧ ¬are_both_dirs) ∨
¬same_meta`; no other case includes. -/
def spec_should_add_row (diff same exact : Bool)
    (same_meta same_data are_both_dirs : Bool) : Bool :=
  if !diff && !same then true
  else if same then same_meta && (!exact || same_data)
  else if !exact then !same_meta
  else (!same_data && !are_both_dirs) || !same_meta

/-- The row-inclusion policy as the code actually decides it: the only
change against the claim's table is the diff-only exact-compare mode,
where `¬exact_data` is decided first and a directory pair is then
rejected outright (even when `¬same_meta`); the `¬same_meta` rule only
applies when `exact_data` holds. -/
def amended_should_add_row (diff same exact : Bool)
    (same_meta same_data are_both_dirs : Bool) : Bool :=
  if !diff && !same then true
  else if same then same_meta && (!exact || same_data)
  else if !exact then !same_meta
  else if !same_data then !are_both_dirs
  else !same_meta

/-- C5 counterexample: in diff-only mode with exact comparison, for a
directory pair with differing metadata and `same_data = false`, the
claim's table includes the row (`¬same_meta` holds) but the code
excludes it (the `¬same_data` branch returns early). -/
theorem should_add_row_cex :
    should_add_row true false true false false true = false
    ∧ spec_should_add_row true false true false false true = true := by
  decide

/-- C5 (amended): for every valid output-selection mode (diff-only and
same-only are mutually exclusive), the code's row-inclusion decision is
the pure function `amended_should_add_row` of `same_meta`,
`exact_data`, the directory-pair flag, and the mode. -/
theorem should_add_row_amended :
    ∀ diff same exact same_meta same_data are_both_dirs : Bool,
      ¬(diff = true ∧ same = true) →
        should_add_row diff same exact same_meta same_data are_both_dirs
          = amended_should_add_row diff same exact same_meta same_data are_both_dirs := by
  decide

/-- Witness for `should_add_row_amended` at a concrete input. -/
theorem should_add_row_amended_witness :
    ¬(true = true ∧ false = true)
    ∧ should_add_row true false true false false true
        = amended_should_add_row true false true false false true :=
  ⟨by decide, should_add_row_amended true false true false false true (by decide)⟩

/-! ### Claim C4 — byte-exact chunked file comparison -/

/-- C4: for a positive chunk size, `file_cmp_exact` returns `true` iff
the two byte sequences are identical, and a mismatch already in the
first chunk pair returns `false` immediately. -/
theorem file_cmp_exact_correct (bufsize : Nat) (hb : 0 < bufsize)
    (l1 l2 : List Nat) :
    (file_cmp_exact bufsize l1 l2 = true ↔ l1 = l2)
    ∧ (l1.take bufsize ≠ l2.take bufsize
        → file_cmp_exact bufsize l1 l2 = false) := by
  constructor
  · induction l1, l2 using file_cmp_exact.induct bufsize with
    | case1 l1 l2 hne =>
      rw [file_cmp_exact]
      simp only [if_pos hne]
      constructor
      · intro hfalse; cases hfalse
      · intro he; exact absurd (by rw [he]) hne
    | case2 l1 l2 heq hemp =>
      rw [file_cmp_exact]
      rw [not_not] at heq
      simp only [if_neg (not_not_intro heq), dif_pos hemp]
      simp only [List.isEmpty_iff, List.take_eq_nil_iff] at hemp
      rcases hemp with h0 | h1
      · exact absurd h0 (Nat.pos_iff_ne_zero.mp hb)
      · subst h1
        simp only [List.take_nil] at heq
        have h2 : l2 = [] := by
          rcases List.take_eq_nil_iff.mp heq.symm with h | h
          · exact absurd h (Nat.pos_iff_ne_zero.mp hb)
          · exact h
        simp [h2]
    | case3 l1 l2 heq hemp ih =>
      rw [file_cmp_exact]
      rw [not_not] at heq
      simp only [if_neg (not_not_intro heq), dif_neg hemp]
      rw [ih]
      constructor
      · intro hdrop
        calc l1 = l1.take bufsize ++ l1.drop bufsize := (List.take_append_drop _ _).symm
          _ = l2.take bufsize ++ l2.drop bufsize := by rw [heq, hdrop]
          _ = l2 := List.take_append_drop _ _
      · intro he; rw [he]
  · intro hne
    rw [file_cmp_exact]
    simp only [if_pos hne]

/-- Witness for `file_cmp_exact_correct` at a concrete input. -/
theorem file_cmp_exact_correct_witness :
    0 < 2
    ∧ ((file_cmp_exact 2 [1, 2, 3] [1, 2, 3] = true ↔ ([1, 2, 3] : List Nat) = [1, 2, 3])
        ∧ (([1, 2, 3] : List Nat).take 2 ≠ ([1, 2, 3] : List Nat).take 2
            → file_cmp_exact 2 [1, 2, 3] [1, 2, 3] = false)) :=
  ⟨by decide, file_cmp_exact_correct 2 (by decide) [1, 2, 3] [1, 2, 3]⟩

/-! ### Claim C7 — exclusion filter decision order -/

/-- Boolean core of the exclusion-order argument: the filter's nested
conditionals as a function of the eight involved boolean facts, with the
consistency conditions that an empty pattern list never matches. -/
theorem sne_key (b1 b2 isf isd e1 m1 e2 m2 : Bool) :
    ¬(isf = true ∧ isd = true) → (e1 = true → m1 = false) → (e2 = true → m2 = false) →
    ((if (b1 && b2) = true then false
      else if (isf && !e1) = true then !m1
      else if (isd && !e2) = true then !m2
      else true) = false
    ↔ (b1 = true ∧ b2 = true)
      ∨ (¬(b1 = true ∧ b2 = true) ∧ isf = true ∧ m1 = true)
      ∨ (¬(b1 = true ∧ b2 = true) ∧ ¬(isf = true ∧ m1 = true)
          ∧ isd = true ∧ m2 = true)) := by
  cases b1 <;> cases b2 <;> cases isf <;> cases isd <;> cases e1 <;> cases m1
    <;> cases e2 <;> cases m2 <;> simp

/-- C7: the exclusion filter excludes exactly in the claimed order: a
dot-prefixed name under `--exdot` (file or directory alike); otherwise a
file matched by some file pattern; otherwise a directory matched by
some directory pattern; everything else is kept.  An entry is a file or
a directory, never both. -/
theorem should_not_exclude_order (cfg : Config) (name : String)
    (isf isd : Bool) (h : ¬(isf = true ∧ isd = true)) :
    should_not_exclude cfg name isf isd = false ↔
      (cfg.exdot = true ∧ dotFirst name = true)
      ∨ (¬(cfg.exdot = true ∧ dotFirst name = true)
          ∧ isf = true ∧ in_exclusion_list name cfg.re_skip_files = true)
      ∨ (¬(cfg.exdot = true ∧ dotFirst name = true)
          ∧ ¬(isf = true ∧ in_exclusion_list name cfg.re_skip_files = true)
          ∧ isd = true ∧ in_exclusion_list name cfg.re_skip_directories = true) := by
  have hrel1 : cfg.re_skip_files.isEmpty = true
      → in_exclusion_list name cfg.re_skip_files = false := by
    intro he; rw [List.isEmpty_iff.mp he]; rfl
  have hrel2 : cfg.re_skip_directories.isEmpty = true
      → in_exclusion_list name cfg.re_skip_directories = false := by
    intro he; rw [List.isEmpty_iff.mp he]; rfl
  exact sne_key cfg.exdot (dotFirst name) isf isd
    cfg.re_skip_files.isEmpty (in_exclusion_list name cfg.re_skip_files)
    cfg.re_skip_directories.isEmpty (in_exclusion_list name cfg.re_skip_directories)
    h hrel1 hrel2

/-- Witness for `should_not_exclude_order` at a concrete input. -/
theorem should_not_exclude_order_witness :
    ¬(true = true ∧ false = true)
    ∧ (should_not_exclude { baseCfg with exdot := true } ".git" true false = false ↔
        (({ baseCfg with exdot := true } : Config).exdot = true ∧ dotFirst ".git" = true)
        ∨ (¬(({ baseCfg with exdot := true } : Config).exdot = true ∧ dotFirst ".git" = true)
            ∧ true = true
            ∧ in_exclusion_list ".git" ({ baseCfg with exdot := true } : Config).re_skip_files = true)
        ∨ (¬(({ baseCfg with exdot := true } : Config).exdot = true ∧ dotFirst ".git" = true)
            ∧ ¬(true = true
                ∧ in_exclusion_list ".git" ({ baseCfg with exdot := true } : Config).re_skip_files = true)
            ∧ false = true
            ∧ in_exclusion_list ".git" ({ baseCfg with exdot := true } : Config).re_skip_directories = true)) :=
  ⟨by decide, should_not_exclude_order { baseCfg with exdot := true } ".git" true false (by decide)⟩

/-! ### Claim C3 — sequential vs parallel scheduler row multisets -/

/-- A file/directory metadata record with all-zero stat fields, for
concrete test trees. -/
def fm0 : FileMeta := ⟨false, 0, 0, 0⟩


/-- Configuration for the C3 counterexample: recursion with dot-exclusion. -/
def cfg3 : Config := { baseCfg with recurse := true, exdot := true }

/-- Left `.d` subdirectory: holds one file. -/
def dL : FSObj := .dir fm0 true [("f", .file fm0 [])]

/-- Right `.d` subdirectory: empty. -/
def dR : FSObj := .dir fm0 true []

/-- Left root for the C3 counterexample. -/
def t3L : FSObj := .dir fm0 true [(".d", dL)]

/-- Right root for the C3 counterexample. -/
def t3R : FSObj := .dir fm0 true [(".d", dR)]

/-- The row the parallel scheduler reports for `f` inside `.d`. -/
def rowF : Row := ⟨"f", .onlyIn 1, .num 0 false, .blank, .time 0 false, .blank, none⟩

/-! ### Claim C2 — when byte-exact comparison is performed -/

/-- Left tree for the C2 counterexample: `n` is a regular file. -/
def cexT1 : FSObj := .dir fm0 true [("n", .file fm0 [1])]

/-- Right tree for the C2 counterexample: `n` is a directory. -/
def cexT2 : FSObj := .dir fm0 true [("n", .dir fm0 true [])]

/-- C2 counterexample: with `--exact`, for a common name that is a file
on the left and a directory on the right, the comparator does invoke the
byte comparison (only the left side's kind is checked), so `dir_cmp`
propagates the `IsADirectoryError` raised by opening the right side,
refuting "never invoked for a name that is a directory on the right side
only". -/
theorem dir_cmp_exact_right_dir_cex :
    dir_cmp { baseCfg with exact := true } ["a"] ["b"] cexT1 cexT2
      = .error .isADirectory := by
  rfl

/-- C2 (amended): byte-exact content comparison is started for a common
name if and only if exact comparison is enabled and the entry is not a
directory on the *left* side; the right side's kind is not consulted
(when the right side is a directory the attempted comparison fails with
an I/O error instead of being skipped). -/
theorem evalExactData_attempted (cfg : Config) (e1 : EntryMeta) (o1 o2 : FSObj) :
    exactAttempted (evalExactData cfg e1 o1 o2) = (cfg.exact && !e1.is_dir) := by
  rw [evalExactData]
  cases h : (cfg.exact && !e1.is_dir) with
  | true =>
    simp only [h, if_true]
    cases o1 <;> cases o2 <;> rfl
  | false =>
    simp only [h, Bool.false_eq_true, if_false]
    rfl

/-! ### Claim C6 — the three name sets partition the combined names -/

/-- C6: for any two filtered snapshot key lists, the common, left-only
and right-only name sets are pairwise disjoint and their union is the
union of the two sides' name sets, so each name belongs to exactly one
of the three. -/
theorem name_sets_partition (k1 k2 : List String) :
    ((same_fnames k1 k2).toFinset ∩ (d1_only k1 k2).toFinset = ∅)
    ∧ ((same_fnames k1 k2).toFinset ∩ (d2_only k1 k2).toFinset = ∅)
    ∧ ((d1_only k1 k2).toFinset ∩ (d2_only k1 k2).toFinset = ∅)
    ∧ ((same_fnames k1 k2).toFinset ∪ (d1_only k1 k2).toFinset
        ∪ (d2_only k1 k2).toFinset = k1.toFinset ∪ k2.toFinset) := by
  refine ⟨?_, ?_, ?_, ?_⟩ <;>
    · ext x
      simp only [same_fnames, d1_only, d2_only, List.mem_toFinset,
        List.mem_filter, List.mem_dedup, Finset.mem_inter, Finset.mem_union,
        Finset.not_mem_empty, decide_eq_true_eq, iff_false, not_and]
      try tauto

/-! ### Claim C9 — listing errors propagate, producing nothing -/

/-- C9: when the directory pair is not short-circuited by the
`skip_directories` membership test, a failure to list either side makes
`dir_cmp` return that very error to its caller; the error return carries
no rows, no statistics increments and no queued work, and nothing is
retried.  The second side is only listed after the first side's listing
succeeded. -/
theorem dir_cmp_scan_error (cfg : Config) (p1 p2 : List String) (t1 t2 : FSObj)
    (h1 : basename p1 ∉ cfg.skip_directories)
    (h2 : basename p2 ∉ cfg.skip_directories) :
    (∀ e, scanDir t1 = .error e → dir_cmp cfg p1 p2 t1 t2 = .error e)
    ∧ (∀ es e, scanDir t1 = .ok es → scanDir t2 = .error e
        → dir_cmp cfg p1 p2 t1 t2 = .error e) := by
  constructor
  · intro e he
    rw [dir_cmp, if_neg h1, if_neg h2, he]
  · intro es e hok he
    rw [dir_cmp, if_neg h1, if_neg h2, hok, he]

/-- An unreadable directory for the C9 witness. -/
def unreadableDir : FSObj := .dir fm0 false []

/-- Witness for `dir_cmp_scan_error` at a concrete input. -/
theorem dir_cmp_scan_error_witness :
    (basename ["a"] ∉ baseCfg.skip_directories)
    ∧ (basename ["b"] ∉ baseCfg.skip_directories)
    ∧ dir_cmp baseCfg ["a"] ["b"] unreadableDir unreadableDir
        = .error .permissionDenied :=
  ⟨by decide, by decide,
    (dir_cmp_scan_error baseCfg ["a"] ["b"] unreadableDir unreadableDir
      (by decide) (by decide)).1 .permissionDenied rfl⟩

/-! ### Claim C10 — exact-membership directory skip returns a bare table -/

/-- C10: when the basename of either input path is an exact string member
of the `skip_directories` list, `dir_cmp` returns the bare empty table —
with no rows, no statistics increments and no queued work, and without
scanning either directory (the result is the same even for unreadable
trees) — whereas every successful call outside this case returns the
`(table, dname1, dname2)` triple. -/
theorem dir_cmp_skip_exact_member (cfg : Config) (p1 p2 : List String)
    (t1 t2 : FSObj) :
    ((basename p1 ∈ cfg.skip_directories ∨ basename p2 ∈ cfg.skip_directories)
      → dir_cmp cfg p1 p2 t1 t2 = .ok ⟨.tableOnly [], Stats.zero, []⟩)
    ∧ (basename p1 ∉ cfg.skip_directories → basename p2 ∉ cfg.skip_directories
      → ∀ out, dir_cmp cfg p1 p2 t1 t2 = .ok out
        → ∃ rows, out.ret = .full rows p1 p2) := by
  constructor
  · rintro (hm | hm)
    · rw [dir_cmp, if_pos hm]
    · rw [dir_cmp]
      by_cases h1 : basename p1 ∈ cfg.skip_directories
      · rw [if_pos h1]
      · rw [if_neg h1, if_pos hm]
  · intro h1 h2 out hout
    rw [dir_cmp, if_neg h1, if_neg h2] at hout
    repeat' split at hout
    all_goals try cases hout
    all_goals simp only [] at hout
    all_goals repeat' split at hout
    all_goals try cases hout
    all_goals exact ⟨_, rfl⟩

/-- Witness for `dir_cmp_skip_exact_member` at a concrete input: the
skipped pair returns the bare empty table even though both trees are
unreadable, showing neither directory is scanned. -/
theorem dir_cmp_skip_exact_member_witness :
    (basename ["s"] ∈ ({ baseCfg with skip_directories := ["s"] } : Config).skip_directories
      ∨ basename ["x"] ∈ ({ baseCfg with skip_directories := ["s"] } : Config).skip_directories)
    ∧ dir_cmp { baseCfg with skip_directories := ["s"] } ["s"] ["x"]
        unreadableDir unreadableDir = .ok ⟨.tableOnly [], Stats.zero, []⟩ :=
  ⟨Or.inl (by decide),
    (dir_cmp_skip_exact_member { baseCfg with skip_directories := ["s"] }
      ["s"] ["x"] unreadableDir unreadableDir).1 (Or.inl (by decide))⟩

/-- Unfolding of `twinsLoop` on the empty name list. -/
theorem twinsLoop_nil (p1 p2 : List String) (t1 t2 : FSObj)
    (hsub : ∀ d ∈ ([] : List String), sizeOf (childD t1 d) < sizeOf t1) :
    twinsLoop p1 p2 t1 t2 [] hsub = .ok [] := by
  rw [twinsLoop.eq_def]

/-- Unfolding of `twinsLoop` on a non-empty name list. -/
theorem twinsLoop_cons (p1 p2 : List String) (t1 t2 : FSObj) (d : String)
    (rest : List String)
    (hsub : ∀ x ∈ d :: rest, sizeOf (childD t1 x) < sizeOf t1) :
    twinsLoop p1 p2 t1 t2 (d :: rest) hsub =
      match find_all_twins (p1 ++ [d]) (p2 ++ [d]) (childD t1 d) (childD t2 d) with
      | .error e => .error e
      | .ok sub =>
        match twinsLoop p1 p2 t1 t2 rest
            (fun x hx => hsub x (List.mem_cons_of_mem _ hx)) with
        | .error e => .error e
        | .ok more =>
          .ok (⟨p1 ++ [d], p2 ++ [d], childD t1 d, childD t2 d⟩ :: (sub ++ more)) := by
  rw [twinsLoop.eq_def]

/-- Unfolding of `find_all_twins` once both listings succeed; the loop's
termination certificate is proof-irrelevant. -/
theorem find_all_twins_ok (p1 p2 : List String) (t1 t2 : FSObj)
    (n1 n2 names : List String) (h1 : gen_folder t1 = .ok n1)
    (h2 : gen_folder t2 = .ok n2)
    (hn : sortNames (n1.filter (fun d => d ∈ n2)) = names)
    (hs : ∀ d ∈ names, sizeOf (childD t1 d) < sizeOf t1) :
    find_all_twins p1 p2 t1 t2 = twinsLoop p1 p2 t1 t2 names hs := by
  subst hn
  rw [find_all_twins]
  split
  next e heq => rw [h1] at heq; cases heq
  next n1' heq =>
    rw [h1] at heq
    cases heq
    split
    next e heq2 => rw [h2] at heq2; cases heq2
    next n2' heq2 =>
      rw [h2] at heq2
      cases heq2
      rfl

/-- No exclusion option is active: no `--exdot`, no `--exdir` patterns
(hence an empty `skip_directories` list), no `--exfile` patterns. -/
def NoExclusions (cfg : Config) : Prop :=
  cfg.exdot = false ∧ cfg.skip_directories = []
    ∧ cfg.re_skip_directories = [] ∧ cfg.re_skip_files = []

/-- With no exclusion options, every entry is kept. -/
theorem should_not_exclude_noexcl {cfg : Config} (h : NoExclusions cfg)
    (n : String) (f d : Bool) : should_not_exclude cfg n f d = true := by
  unfold should_not_exclude
  rw [h.1, h.2.2.1, h.2.2.2]
  simp

/-- With no exclusion options, the snapshot keeps every scanned child. -/
theorem snapshot_noexcl {cfg : Config} (h : NoExclusions cfg)
    (es : List (String × FSObj)) :
    snapshot cfg es = es.map (fun nf => (nf.1, entryMeta cfg nf.2, nf.2)) := by
  unfold snapshot
  induction es with
  | nil => rfl
  | cons nf rest ih =>
    rw [List.filterMap_cons, List.map_cons]
    simp only [should_not_exclude_noexcl h, if_true] at ih ⊢
    rw [ih]

/-- Unfolding of the children's well-formedness check. -/
theorem WFList_iff : ∀ l : List (String × FSObj),
    WFList l = true ↔ ∀ p ∈ l, WF p.2 = true := by
  intro l
  induction l with
  | nil => simp [WFList]
  | cons nf rest ih =>
    obtain ⟨n0, o0⟩ := nf
    rw [WFList]
    simp only [Bool.and_eq_true, ih, List.mem_cons]
    constructor
    · rintro ⟨h1, h2⟩ p (rfl | hp)
      · exact h1
      · exact h2 p hp
    · intro h
      exact ⟨h _ (Or.inl rfl), fun p hp => h p (Or.inr hp)⟩

/-- Unfolding of the well-formedness of a directory. -/
theorem WF_dir_iff (m : FileMeta) (r : Bool) (es : List (String × FSObj)) :
    WF (.dir m r es) = true
      ↔ r = true ∧ (es.map Prod.fst).Nodup ∧ ∀ p ∈ es, WF p.2 = true := by
  rw [WF]
  simp [WFList_iff, and_assoc]

/-- Under distinct keys, a member pair is what lookup returns. -/
theorem nodup_lookup {α : Type} {l : List (String × α)}
    (hnd : (l.map Prod.fst).Nodup) {k : String} {v : α} (h : (k, v) ∈ l) :
    List.lookup k l = some v := by
  induction l with
  | nil => cases h
  | cons a rest ih =>
    obtain ⟨k0, v0⟩ := a
    rw [List.map_cons, List.nodup_cons] at hnd
    rw [List.lookup_cons]
    rcases List.mem_cons.mp h with he | hm
    · cases he
      simp
    · have hk : (k == k0) = false := by
        rw [beq_eq_false_iff_ne]
        intro hkk
        subst hkk
        exact hnd.1 (List.mem_map.mpr ⟨(k, v), hm, rfl⟩)
      simp only [hk]
      exact ih hnd.2 hm

/-- Membership in the deduplicated subdirectory-name list, for a
directory with distinct child names. -/
theorem mem_subdir_names_iff {es : List (String × FSObj)}
    (hnd : (es.map Prod.fst).Nodup) (d : String) :
    d ∈ subNames es
      ↔ ∃ o, List.lookup d es = some o ∧ o.isDir = true := by
  rw [subNames, List.mem_dedup, List.mem_filterMap]
  constructor
  · rintro ⟨nf, hnf, hval⟩
    by_cases hdir : nf.2.isDir = true
    · rw [if_pos hdir] at hval
      cases hval
      exact ⟨nf.2, nodup_lookup hnd (by simpa using hnf), hdir⟩
    · rw [if_neg hdir] at hval
      cases hval
  · rintro ⟨o, ho, hdir⟩
    exact ⟨(d, o), lookup_mem ho, by rw [if_pos hdir]⟩

/-- Two duplicate-free lists with the same members are permutations. -/
theorem perm_of_nodup_mem_iff {l1 l2 : List String} (h1 : l1.Nodup)
    (h2 : l2.Nodup) (h : ∀ a, a ∈ l1 ↔ a ∈ l2) : l1.Perm l2 := by
  rw [List.perm_iff_count]
  intro a
  by_cases ha : a ∈ l1
  · rw [List.count_eq_one_of_mem h1 ha, List.count_eq_one_of_mem h2 ((h a).mp ha)]
  · rw [List.count_eq_zero_of_not_mem ha,
      List.count_eq_zero_of_not_mem (fun hc => ha ((h a).mpr hc))]

/-- Concatenations of pointwise-permuted row lists are permutations. -/
theorem flatten_perm_pointwise :
    ∀ {l1 l2 : List (List Row)}, List.Forall₂ List.Perm l1 l2 →
      l1.flatten.Perm l2.flatten := by
  intro l1 l2 h
  induction h with
  | nil => exact List.Perm.refl _
  | cons hab _ ih => exact hab.append ih

/-- The queued/registry work item for one common subdirectory name. -/
def mkTwin (p1 p2 : List String) (t1 t2 : FSObj) (d : String) : QItem :=
  ⟨p1 ++ [d], p2 ++ [d], childD t1 d, childD t2 d⟩

/-- Whether a name triggers recursion: both sides list it as a directory
and recursion is on. -/
def twinCond (cfg : Config) (es1 es2 : List (String × FSObj)) (f : String) : Bool :=
  cfg.recurse && (((List.lookup f es1).map FSObj.isDir).getD false)
    && (((List.lookup f es2).map FSObj.isDir).getD false)

/-- With no exclusion options, snapshot lookups are scanned-entry
lookups decorated with the metadata tuple. -/
theorem lookup_snapshot_noexcl {cfg : Config} (hne : NoExclusions cfg)
    (es : List (String × FSObj)) (f : String) :
    List.lookup f (snapshot cfg es)
      = (List.lookup f es).map (fun o => (entryMeta cfg o, o)) := by
  rw [snapshot_noexcl hne]
  induction es with
  | nil => rfl
  | cons nf rest ih =>
    obtain ⟨n0, o0⟩ := nf
    rw [List.map_cons, List.lookup_cons, List.lookup_cons]
    cases hbeq : (f == n0) <;> simp [hbeq, ih]

/-- With no exclusion options, the snapshot's key list is the scanned
name list. -/
theorem snapshot_keys_noexcl {cfg : Config} (hne : NoExclusions cfg)
    (es : List (String × FSObj)) :
    (snapshot cfg es).map (·.1) = es.map Prod.fst := by
  rw [snapshot_noexcl hne, List.map_map]
  rfl

/-- A key is listed exactly when its lookup succeeds. -/
theorem mem_keys_iff_lookup {α : Type} (l : List (String × α)) (f : String) :
    f ∈ l.map Prod.fst ↔ (List.lookup f l).isSome = true := by
  constructor
  · intro h
    obtain ⟨p, hp, rfl⟩ := List.mem_map.mp h
    exact lookup_isSome_of_mem (by simpa using hp)
  · intro h
    obtain ⟨v, hv⟩ := Option.isSome_iff_exists.mp h
    exact List.mem_map.mpr ⟨(f, v), lookup_mem hv, rfl⟩

/-- The queued items of the common-name loop over two exclusion-free
snapshots, rewritten as a filter over the name list itself. -/
theorem zip_to_names {cfg : Config} (hne : NoExclusions cfg)
    (p1 p2 : List String) (es1 es2 : List (String × FSObj)) :
    ∀ names : List String,
      (((zipCommon (snapshot cfg es1) (snapshot cfg es2) names).filter
          (fun tr => cfg.recurse && tr.2.1.1.is_dir && tr.2.2.1.is_dir)).map
        (fun tr => (⟨p1 ++ [tr.1], p2 ++ [tr.1], tr.2.1.2, tr.2.2.2⟩ : QItem)))
      = (names.filter (twinCond cfg es1 es2)).map
          (fun f => ⟨p1 ++ [f], p2 ++ [f],
            (List.lookup f es1).getD default, (List.lookup f es2).getD default⟩) := by
  intro names
  induction names with
  | nil => rfl
  | cons f rest ih =>
    have l1 := lookup_snapshot_noexcl hne es1 f
    have l2 := lookup_snapshot_noexcl hne es2 f
    simp only [zipCommon, List.filterMap_cons] at ih ⊢
    cases h1 : List.lookup f es1 with
    | none =>
      rw [h1] at l1
      simp only [Option.map_none'] at l1
      have hc : twinCond cfg es1 es2 f = false := by
        simp [twinCond, h1]
      simp only [l1, List.filter_cons, hc, Bool.false_eq_true, if_false]
      exact ih
    | some o1 =>
      rw [h1] at l1
      simp only [Option.map_some'] at l1
      cases h2 : List.lookup f es2 with
      | none =>
        rw [h2] at l2
        simp only [Option.map_none'] at l2
        have hc : twinCond cfg es1 es2 f = false := by
          simp [twinCond, h2]
        simp only [l1, l2, List.filter_cons, hc, Bool.false_eq_true, if_false]
        exact ih
      | some o2 =>
        rw [h2] at l2
        simp only [Option.map_some'] at l2
        have hcond : (cfg.recurse && (entryMeta cfg o1).is_dir
            && (entryMeta cfg o2).is_dir) = twinCond cfg es1 es2 f := by
          simp [twinCond, h1, h2, entryMeta]
        simp only [l1, l2, List.filter_cons, hcond]
        cases htc : twinCond cfg es1 es2 f with
        | false =>
          simp only [Bool.false_eq_true, if_false]
          exact ih
        | true =>
          simp only [if_true, List.map_cons]
          rw [ih]
          rw [h1, h2]
          rfl

/-- Under no exclusions, the work a successful `dir_cmp` queues is one
item per common name that is a directory on both sides, holding the
name's two children. -/
theorem dir_cmp_ok_noexcl {cfg : Config} (hne : NoExclusions cfg)
    (p1 p2 : List String) (m1 m2 : FileMeta) (es1 es2 : List (String × FSObj))
    {out : CmpOut}
    (h : dir_cmp cfg p1 p2 (.dir m1 true es1) (.dir m2 true es2) = .ok out) :
    out.queued = ((same_fnames (es1.map Prod.fst) (es2.map Prod.fst)).filter
        (twinCond cfg es1 es2)).map
        (mkTwin p1 p2 (.dir m1 true es1) (.dir m2 true es2)) := by
  rw [dir_cmp, hne.2.1] at h
  rw [if_neg (by simp), if_neg (by simp)] at h
  rw [show scanDir (FSObj.dir m1 true es1) = .ok es1 from rfl] at h
  rw [show scanDir (FSObj.dir m2 true es2) = .ok es2 from rfl] at h
  simp only [] at h
  cases hpc : processCommon cfg p1 p2
      (zipCommon (snapshot cfg es1) (snapshot cfg es2)
        (same_fnames ((snapshot cfg es1).map (·.1))
          ((snapshot cfg es2).map (·.1)))) with
  | error e => rw [hpc] at h; cases h
  | ok v =>
    obtain ⟨crows, st, queued⟩ := v
    rw [hpc] at h
    cases h
    have hq := processCommon_ok_queued cfg p1 p2 _ _ _ _ hpc
    rw [snapshot_keys_noexcl hne es1, snapshot_keys_noexcl hne es2] at hq
    show queued = _
    rw [hq, zip_to_names hne p1 p2 es1 es2]
    rfl

/-- An `Except` value has a `some` option form exactly when it is `ok`. -/
theorem except_isSome {ε α : Type} {e : Except ε α} :
    e.toOption.isSome = true ↔ ∃ v, e = .ok v := by
  cases e <;> simp [Except.toOption]

/-- The recursively discovered pairs below one common subdirectory. -/
def subTwins (p1 p2 : List String) (t1 t2 : FSObj) (d : String) : List QItem :=
  (find_all_twins (p1 ++ [d]) (p2 ++ [d]) (childD t1 d) (childD t2 d)).toOption.getD []

/-- The rows one registry pair contributes in the parallel run. -/
def rowsOfPair (cfg : Config) (i : QItem) : List Row :=
  ((dir_cmp cfg i.p1 i.p2 i.t1 i.t2).toOption.map CmpOut.rows).getD []

/-- The rows of one pair's whole subtree in discovery order. -/
def treeRowsD (cfg : Config) (i : QItem) : List Row :=
  (treeRows cfg i).toOption.getD []

/-- Structure of a successful `twinsLoop` run: every listed name's
recursive discovery succeeded, and the result is the concatenation of the
per-name blocks, each a pair followed by its subtree's pairs. -/
theorem twinsLoop_ok_elim (p1 p2 : List String) (t1 t2 : FSObj) :
    ∀ (names : List String)
      (hsub : ∀ d ∈ names, sizeOf (childD t1 d) < sizeOf t1)
      (tw : List QItem),
      twinsLoop p1 p2 t1 t2 names hsub = .ok tw →
      (∀ d ∈ names,
        (find_all_twins (p1 ++ [d]) (p2 ++ [d]) (childD t1 d)
          (childD t2 d)).toOption.isSome = true)
      ∧ tw = (names.map (fun d =>
          mkTwin p1 p2 t1 t2 d :: subTwins p1 p2 t1 t2 d)).flatten := by
  intro names
  induction names with
  | nil =>
    intro hsub tw h
    rw [twinsLoop_nil] at h
    cases h
    exact ⟨by simp, rfl⟩
  | cons d rest ih =>
    intro hsub tw h
    rw [twinsLoop_cons] at h
    cases hf : find_all_twins (p1 ++ [d]) (p2 ++ [d]) (childD t1 d) (childD t2 d) with
    | error e => rw [hf] at h; cases h
    | ok sub =>
      rw [hf] at h
      cases hl : twinsLoop p1 p2 t1 t2 rest
          (fun x hx => hsub x (List.mem_cons_of_mem _ hx)) with
      | error e => rw [hl] at h; cases h
      | ok more =>
        rw [hl] at h
        cases h
        obtain ⟨ihall, ihtw⟩ := ih _ _ hl
        constructor
        · intro x hx
          rcases List.mem_cons.mp hx with rfl | hm
          · rw [hf]; rfl
          · exact ihall x hm
        · rw [List.map_cons, List.flatten_cons, ← ihtw]
          have hsubeq : subTwins p1 p2 t1 t2 d = sub := by
            rw [subTwins, hf]; rfl
          rw [hsubeq, mkTwin]
          simp

/-- Structure of a successful `runPairs` run: every pair's comparison
succeeded and the rows are the concatenation of the per-pair rows. -/
theorem runPairs_ok_elim (cfg : Config) :
    ∀ (q : List QItem) (v : List Row), runPairs cfg q = .ok v →
      (∀ i ∈ q, (dir_cmp cfg i.p1 i.p2 i.t1 i.t2).toOption.isSome = true)
      ∧ v = (q.map (rowsOfPair cfg)).flatten := by
  intro q
  induction q with
  | nil =>
    intro v h
    rw [runPairs] at h
    cases h
    exact ⟨by simp, rfl⟩
  | cons i rest ih =>
    intro v h
    rw [runPairs] at h
    cases hd : dir_cmp cfg i.p1 i.p2 i.t1 i.t2 with
    | error e => rw [hd] at h; cases h
    | ok out =>
      rw [hd] at h
      cases hr : runPairs cfg rest with
      | error e => rw [hr] at h; cases h
      | ok rs =>
        rw [hr] at h
        cases h
        obtain ⟨ihall, ihv⟩ := ih _ hr
        constructor
        · intro x hx
          rcases List.mem_cons.mp hx with rfl | hm
          · rw [hd]; rfl
          · exact ihall x hm
        · rw [List.map_cons, List.flatten_cons, ← ihv]
          have : rowsOfPair cfg i = out.rows := by
            rw [rowsOfPair, hd]; rfl
          rw [this]

/-- Converse: if every pair's comparison succeeds, `runPairs` returns the
concatenation of the per-pair rows. -/
theorem runPairs_ok_intro (cfg : Config) :
    ∀ q : List QItem,
      (∀ i ∈ q, (dir_cmp cfg i.p1 i.p2 i.t1 i.t2).toOption.isSome = true) →
      runPairs cfg q = .ok ((q.map (rowsOfPair cfg)).flatten) := by
  intro q
  induction q with
  | nil => intro _; rw [runPairs]; rfl
  | cons i rest ih =>
    intro h
    obtain ⟨out, hout⟩ := except_isSome.mp (h i (List.mem_cons_self _ _))
    rw [runPairs, hout, ih (fun x hx => h x (List.mem_cons_of_mem _ hx))]
    have : rowsOfPair cfg i = out.rows := by rw [rowsOfPair, hout]; rfl
    rw [List.map_cons, List.flatten_cons, this]

/-- Evaluation of `treeRows` from its two sub-results. -/
theorem treeRows_eval (cfg : Config) (i : QItem) (out : CmpOut) (rs : List Row)
    (hd : dir_cmp cfg i.p1 i.p2 i.t1 i.t2 = .ok out)
    (hl : treeRowsList cfg out.queued = .ok rs) :
    treeRows cfg i = .ok (out.rows ++ rs) := by
  rw [treeRows.eq_def]
  split
  next e heq => rw [hd] at heq; cases heq
  next out' heq =>
    rw [hd] at heq
    cases heq
    rw [hl]

/-- If every subtree's rows are defined, `treeRowsList` concatenates
them. -/
theorem treeRowsList_intro (cfg : Config) :
    ∀ q : List QItem, (∀ i ∈ q, (treeRows cfg i).toOption.isSome = true) →
      treeRowsList cfg q = .ok ((q.map (treeRowsD cfg)).flatten) := by
  intro q
  induction q with
  | nil => intro _; rw [treeRowsList.eq_def]; rfl
  | cons i rest ih =>
    intro h
    obtain ⟨a, ha⟩ := except_isSome.mp (h i (List.mem_cons_self _ _))
    have hrest := ih (fun x hx => h x (List.mem_cons_of_mem _ hx))
    rw [treeRowsList.eq_def]
    simp only [ha, hrest]
    have hda : treeRowsD cfg i = a := by rw [treeRowsD, ha]; rfl
    rw [List.map_cons, List.flatten_cons, hda]

/-- Structure of a successful sequential queue drain: every queued pair's
subtree rows are defined and the drained rows are a permutation of their
concatenation (the queue is breadth-first, the reference collection
depth-first). -/
theorem drainQueue_ok_elim (cfg : Config) :
    ∀ (n : Nat) (q : List QItem) (rs : List Row),
      (q.map (fun i => sizeOf i.t1)).sum ≤ n →
      drainQueue cfg q = .ok rs →
      (∀ i ∈ q, (treeRows cfg i).toOption.isSome = true)
      ∧ rs.Perm ((q.map (treeRowsD cfg)).flatten) := by
  intro n
  induction n with
  | zero =>
    intro q rs hm h
    cases q with
    | nil =>
      rw [drainQueue.eq_def] at h
      cases h
      exact ⟨by simp, by simp⟩
    | cons i rest =>
      exfalso
      have := FSObj.sizeOf_pos i.t1
      simp only [List.map_cons, List.sum_cons] at hm
      omega
  | succ n ih =>
    intro q rs hm h
    cases q with
    | nil =>
      rw [drainQueue.eq_def] at h
      cases h
      exact ⟨by simp, by simp⟩
    | cons i rest =>
      rw [drainQueue.eq_def] at h
      simp only [] at h
      split at h
      next e heq => cases h
      next out heq =>
        cases hdr : drainQueue cfg (rest ++ out.queued) with
        | error e => rw [hdr] at h; cases h
        | ok rs' =>
          rw [hdr] at h
          cases h
          have hqlt := dir_cmp_queued_sum_lt heq
          have hmeas : ((rest ++ out.queued).map (fun i => sizeOf i.t1)).sum ≤ n := by
            simp only [List.map_append, List.sum_append] at *
            simp only [List.map_cons, List.sum_cons] at hm
            omega
          obtain ⟨hall, hperm⟩ := ih _ _ hmeas hdr
          have hq : ∀ x ∈ out.queued, (treeRows cfg x).toOption.isSome = true :=
            fun x hx => hall x (List.mem_append_right _ hx)
          have hrest : ∀ x ∈ rest, (treeRows cfg x).toOption.isSome = true :=
            fun x hx => hall x (List.mem_append_left _ hx)
          have hlq := treeRowsList_intro cfg out.queued hq
          have hti : treeRows cfg i
              = .ok (out.rows ++ ((out.queued.map (treeRowsD cfg)).flatten)) :=
            treeRows_eval cfg i out _ heq hlq
          constructor
          · intro x hx
            rcases List.mem_cons.mp hx with rfl | hmx
            · rw [hti]; rfl
            · exact hrest x hmx
          · have hDi : treeRowsD cfg i
                = out.rows ++ ((out.queued.map (treeRowsD cfg)).flatten) := by
              rw [treeRowsD, hti]; rfl
            rw [List.map_cons, List.flatten_cons, hDi]
            rw [List.map_append, List.flatten_append] at hperm
            refine (List.Perm.append_left out.rows
              (hperm.trans List.perm_append_comm)).trans ?_
            rw [List.append_assoc]

/-- The recursion condition spelled out. -/
theorem twinCond_iff (cfg : Config) (es1 es2 : List (String × FSObj))
    (f : String) :
    twinCond cfg es1 es2 f = true
      ↔ cfg.recurse = true
        ∧ (∃ o1, List.lookup f es1 = some o1 ∧ o1.isDir = true)
        ∧ (∃ o2, List.lookup f es2 = some o2 ∧ o2.isDir = true) := by
  rw [twinCond]
  cases h1 : List.lookup f es1 with
  | none => simp [h1]
  | some o1 =>
    cases h2 : List.lookup f es2 with
    | none => simp [h1, h2]
    | some o2 => simp [h1, h2, and_assoc]

/-- Membership in the common-name list. -/
theorem mem_same_fnames (k1 k2 : List String) (f : String) :
    f ∈ same_fnames k1 k2 ↔ f ∈ k1 ∧ f ∈ k2 := by
  simp [same_fnames, List.mem_filter, List.mem_dedup]

/-- The sequential scheduler's recursion names and the twin discoverer's
level names coincide up to order, for duplicate-free listings. -/
theorem seq_par_names_perm {cfg : Config} (hrec : cfg.recurse = true)
    {es1 es2 : List (String × FSObj)}
    (hn1 : (es1.map Prod.fst).Nodup) (hn2 : (es2.map Prod.fst).Nodup) :
    ((same_fnames (es1.map Prod.fst) (es2.map Prod.fst)).filter
        (twinCond cfg es1 es2)).Perm
      (sortNames ((subNames es1).filter (fun d => d ∈ subNames es2))) := by
  apply perm_of_nodup_mem_iff
  · exact (same_fnames_nodup _ _).filter _
  · exact ((List.perm_insertionSort _ _).nodup_iff).mpr
      ((List.nodup_dedup _).filter _)
  · intro f
    rw [List.mem_filter, mem_same_fnames, sortNames,
      (List.perm_insertionSort (· ≤ ·) _).mem_iff, List.mem_filter]
    simp only [decide_eq_true_eq]
    constructor
    · rintro ⟨⟨hk1, hk2⟩, htc⟩
      obtain ⟨_, ⟨o1, ho1, hd1⟩, ⟨o2, ho2, hd2⟩⟩ :=
        (twinCond_iff cfg es1 es2 f).mp htc
      exact ⟨(mem_subdir_names_iff hn1 f).mpr ⟨o1, ho1, hd1⟩,
        (mem_subdir_names_iff hn2 f).mpr ⟨o2, ho2, hd2⟩⟩
    · rintro ⟨hs1, hs2⟩
      obtain ⟨o1, ho1, hd1⟩ := (mem_subdir_names_iff hn1 f).mp hs1
      obtain ⟨o2, ho2, hd2⟩ := (mem_subdir_names_iff hn2 f).mp hs2
      refine ⟨⟨?_, ?_⟩, ?_⟩
      · exact (mem_keys_iff_lookup es1 f).mpr (by rw [ho1]; rfl)
      · exact (mem_keys_iff_lookup es2 f).mpr (by rw [ho2]; rfl)
      · exact (twinCond_iff cfg es1 es2 f).mpr ⟨hrec, ⟨o1, ho1, hd1⟩, ⟨o2, ho2, hd2⟩⟩

/-- The parallel run's rows over a sequence of registry blocks are a
permutation of the per-name subtree rows, given the per-name fact. -/
theorem blocks_rows_perm (cfg : Config) (p1 p2 : List String) (t1 t2 : FSObj) :
    ∀ names : List String,
      (∀ d ∈ names,
        (rowsOfPair cfg (mkTwin p1 p2 t1 t2 d)
          ++ ((subTwins p1 p2 t1 t2 d).map (rowsOfPair cfg)).flatten).Perm
          (treeRowsD cfg (mkTwin p1 p2 t1 t2 d))) →
      ((((names.map (fun d => mkTwin p1 p2 t1 t2 d :: subTwins p1 p2 t1 t2 d)).flatten).map
          (rowsOfPair cfg)).flatten).Perm
        ((names.map (fun d => treeRowsD cfg (mkTwin p1 p2 t1 t2 d))).flatten) := by
  intro names
  induction names with
  | nil => intro _; exact List.Perm.refl _
  | cons d rest ih =>
    intro h
    rw [List.map_cons, List.flatten_cons, List.map_append, List.flatten_append,
      List.map_cons, List.flatten_cons, List.map_cons, List.flatten_cons]
    exact (h d (List.mem_cons_self _ _)).append
      (ih (fun x hx => h x (List.mem_cons_of_mem _ hx)))

/-- The heart of the scheduler equivalence: under recursion with no
exclusion options, on well-formed trees, the rows the parallel scheduler
collects for a pair's registry subtree are a permutation of the rows the
pair's queued children contribute in the depth-first reference
collection, and all those subtree rows are defined. -/
theorem par_forest (cfg : Config) (hrec : cfg.recurse = true)
    (hne : NoExclusions cfg) :
    ∀ (N : Nat) (t1 t2 : FSObj) (p1 p2 : List String) (tw : List QItem)
      (v : List Row) (out : CmpOut),
      sizeOf t1 ≤ N → WF t1 = true → WF t2 = true →
      find_all_twins p1 p2 t1 t2 = .ok tw →
      runPairs cfg tw = .ok v →
      dir_cmp cfg p1 p2 t1 t2 = .ok out →
      (∀ i ∈ out.queued, (treeRows cfg i).toOption.isSome = true)
      ∧ v.Perm ((out.queued.map (treeRowsD cfg)).flatten) := by
  intro N
  induction N with
  | zero =>
    intro t1 _ _ _ _ _ _ hsize _ _ _ _ _
    exact absurd hsize (by have := FSObj.sizeOf_pos t1; omega)
  | succ N ih =>
    intro t1 t2 p1 p2 tw v out hsize hw1 hw2 htw hv hd
    cases t1 with
    | file m c =>
      exfalso
      rw [dir_cmp, hne.2.1, if_neg (by simp), if_neg (by simp),
        show scanDir (FSObj.file m c) = .error .notADirectory from rfl] at hd
      cases hd
    | dir m1 r1 es1 =>
      obtain ⟨hr1, hnd1, hch1⟩ := (WF_dir_iff m1 r1 es1).mp hw1
      subst hr1
      cases t2 with
      | file m c =>
        exfalso
        rw [dir_cmp, hne.2.1, if_neg (by simp), if_neg (by simp),
          show scanDir (FSObj.dir m1 true es1) = .ok es1 from rfl,
          show scanDir (FSObj.file m c) = .error .notADirectory from rfl] at hd
        cases hd
      | dir m2 r2 es2 =>
        obtain ⟨hr2, hnd2, hch2⟩ := (WF_dir_iff m2 r2 es2).mp hw2
        subst hr2
        have hg1 : gen_folder (FSObj.dir m1 true es1) = .ok (subNames es1) := rfl
        have hg2 : gen_folder (FSObj.dir m2 true es2) = .ok (subNames es2) := rfl
        have hsproof : ∀ d ∈ sortNames ((subNames es1).filter
            (fun d => d ∈ subNames es2)),
            sizeOf (childD (FSObj.dir m1 true es1) d)
              < sizeOf (FSObj.dir m1 true es1) := by
          intro d hdm
          have hd1 : d ∈ (subNames es1).filter
              (fun x => decide (x ∈ subNames es2)) :=
            (List.perm_insertionSort _ _).mem_iff.mp hdm
          exact childD_size_of_gen_folder hg1 (List.mem_filter.mp hd1).1
        rw [find_all_twins_ok p1 p2 _ _ (subNames es1) (subNames es2) _
          hg1 hg2 rfl hsproof] at htw
        obtain ⟨hsubs, htwstruct⟩ := twinsLoop_ok_elim p1 p2 _ _ _ _ _ htw
        obtain ⟨hallcmp, hvform⟩ := runPairs_ok_elim cfg _ _ hv
        have hqf := dir_cmp_ok_noexcl hne p1 p2 m1 m2 es1 es2 hd
        have hnp := seq_par_names_perm hrec hnd1 hnd2
        have perD : ∀ d ∈ sortNames ((subNames es1).filter
            (fun d => d ∈ subNames es2)),
            (treeRows cfg (mkTwin p1 p2 (FSObj.dir m1 true es1)
              (FSObj.dir m2 true es2) d)).toOption.isSome = true
            ∧ (rowsOfPair cfg (mkTwin p1 p2 (FSObj.dir m1 true es1)
                (FSObj.dir m2 true es2) d)
              ++ ((subTwins p1 p2 (FSObj.dir m1 true es1)
                (FSObj.dir m2 true es2) d).map (rowsOfPair cfg)).flatten).Perm
              (treeRowsD cfg (mkTwin p1 p2 (FSObj.dir m1 true es1)
                (FSObj.dir m2 true es2) d)) := by
          intro d hdmem
          obtain ⟨twd, htwd⟩ := except_isSome.mp (hsubs d hdmem)
          have hsubeq : subTwins p1 p2 (FSObj.dir m1 true es1)
              (FSObj.dir m2 true es2) d = twd := by
            rw [subTwins, htwd]; rfl
          have hitem_mem : mkTwin p1 p2 (FSObj.dir m1 true es1)
              (FSObj.dir m2 true es2) d ∈ tw := by
            rw [htwstruct]
            exact List.mem_flatten.mpr
              ⟨_, List.mem_map.mpr ⟨d, hdmem, rfl⟩, List.mem_cons_self _ _⟩
          obtain ⟨outd, houtd⟩ := except_isSome.mp (hallcmp _ hitem_mem)
          have hsubmem : ∀ i ∈ subTwins p1 p2 (FSObj.dir m1 true es1)
              (FSObj.dir m2 true es2) d, i ∈ tw := by
            intro i hi
            rw [htwstruct]
            exact List.mem_flatten.mpr
              ⟨_, List.mem_map.mpr ⟨d, hdmem, rfl⟩, List.mem_cons_of_mem _ hi⟩
          have hrp_sub := runPairs_ok_intro cfg
            (subTwins p1 p2 (FSObj.dir m1 true es1) (FSObj.dir m2 true es2) d)
            (fun i hi => hallcmp i (hsubmem i hi))
          have hdfilter : d ∈ (subNames es1).filter
              (fun x => decide (x ∈ subNames es2)) :=
            (List.perm_insertionSort _ _).mem_iff.mp hdmem
          have hdm1 : d ∈ subNames es1 := (List.mem_filter.mp hdfilter).1
          have hdm2 : d ∈ subNames es2 := by
            have := (List.mem_filter.mp hdfilter).2
            simpa using this
          obtain ⟨o1, ho1, ho1d⟩ := (mem_subdir_names_iff hnd1 d).mp hdm1
          obtain ⟨o2, ho2, ho2d⟩ := (mem_subdir_names_iff hnd2 d).mp hdm2
          have hc1 : childD (FSObj.dir m1 true es1) d = o1 := by
            show (List.lookup d es1).getD default = o1
            rw [ho1]
            rfl
          have hc2 : childD (FSObj.dir m2 true es2) d = o2 := by
            show (List.lookup d es2).getD default = o2
            rw [ho2]
            rfl
          have hwc1 : WF (childD (FSObj.dir m1 true es1) d) = true := by
            rw [hc1]
            exact hch1 (d, o1) (lookup_mem ho1)
          have hwc2 : WF (childD (FSObj.dir m2 true es2) d) = true := by
            rw [hc2]
            exact hch2 (d, o2) (lookup_mem ho2)
          have hszc : sizeOf (childD (FSObj.dir m1 true es1) d) ≤ N := by
            have := childD_size_of_gen_folder hg1 hdm1
            omega
          obtain ⟨ihq, ihperm⟩ := ih (childD (FSObj.dir m1 true es1) d)
            (childD (FSObj.dir m2 true es2) d) (p1 ++ [d]) (p2 ++ [d])
            _ _ outd hszc hwc1 hwc2 (hsubeq ▸ htwd) hrp_sub houtd
          have hlq := treeRowsList_intro cfg outd.queued ihq
          have htr : treeRows cfg (mkTwin p1 p2 (FSObj.dir m1 true es1)
              (FSObj.dir m2 true es2) d)
              = .ok (outd.rows ++ ((outd.queued.map (treeRowsD cfg)).flatten)) :=
            treeRows_eval cfg _ outd _ houtd hlq
          constructor
          · rw [htr]; rfl
          · have hrop : rowsOfPair cfg (mkTwin p1 p2 (FSObj.dir m1 true es1)
                (FSObj.dir m2 true es2) d) = outd.rows := by
              rw [rowsOfPair, houtd]; rfl
            have hDi : treeRowsD cfg (mkTwin p1 p2 (FSObj.dir m1 true es1)
                (FSObj.dir m2 true es2) d)
                = outd.rows ++ ((outd.queued.map (treeRowsD cfg)).flatten) := by
              rw [treeRowsD, htr]; rfl
            rw [hrop, hDi]
            exact List.Perm.append_left outd.rows (hsubeq ▸ ihperm)
        constructor
        · intro i hi
          rw [hqf] at hi
          obtain ⟨f, hf, rfl⟩ := List.mem_map.mp hi
          exact (perD f (hnp.mem_iff.mp (by simpa using hf))).1
        · rw [hvform, htwstruct, hqf, List.map_map]
          refine (blocks_rows_perm cfg p1 p2 _ _ _
            (fun d hd' => (perD d hd').2)).trans ?_
          exact List.Perm.flatten (hnp.symm.map _)

/-- C3 counterexample: with `--recurse --exdot` and a dot-named common
subdirectory, the sequential scheduler (whose recursion honours the
exclusion filter) produces no rows, while the parallel scheduler (whose
twin registry is built without the exclusion filter) still descends into
`.d` and reports its contents, so the two schedulers' row multisets
differ. -/
theorem seq_par_cex :
    sequentialRun cfg3 ["a"] ["b"] t3L t3R = .ok []
    ∧ parallelRun cfg3 ["a"] ["b"] t3L t3R = .ok [rowF]
    ∧ ¬ (([] : List Row).Perm [rowF]) := by
  have hroot : dir_cmp cfg3 ["a"] ["b"] t3L t3R
      = .ok ⟨.full [] ["a"] ["b"], Stats.zero, []⟩ := by rfl
  have hsub : find_all_twins ["a", ".d"] ["b", ".d"] dL dR = .ok [] := by
    rw [find_all_twins_ok ["a", ".d"] ["b", ".d"] dL dR [] [] [] rfl rfl rfl
      (by intro d hd; cases hd)]
    exact twinsLoop_nil _ _ _ _ _
  have htw : find_all_twins ["a"] ["b"] t3L t3R
      = .ok [⟨["a", ".d"], ["b", ".d"], dL, dR⟩] := by
    rw [find_all_twins_ok ["a"] ["b"] t3L t3R [".d"] [".d"] [".d"] rfl rfl rfl (by
      intro d hd
      have hd' : d = ".d" := by simpa using hd
      subst hd'
      show sizeOf (childD t3L ".d") < sizeOf t3L
      decide)]
    rw [twinsLoop_cons]
    simp only [List.cons_append, List.nil_append,
      show childD t3L ".d" = dL from rfl, show childD t3R ".d" = dR from rfl,
      hsub, twinsLoop_nil, List.append_nil]
  refine ⟨?_, ?_, ?_⟩
  · unfold sequentialRun
    rw [hroot]
    simp only []
    rw [drainQueue]
    rfl
  · unfold parallelRun
    rw [hroot]
    simp only []
    rw [htw]
    simp only []
    rfl
  · intro hp
    have := hp.length_eq
    simp at this

/-- C3 (amended): with recursion enabled and no exclusion options
active, for well-formed trees (readable directories, duplicate-free
entry names), whenever both schedulers complete, the sequential run and
the parallel run (any positive worker count; the pool's completion
order only permutes rows) produce the same multiset of rows. -/
theorem seq_par_same_rows (cfg : Config) (p1 p2 : List String)
    (t1 t2 : FSObj) (hrec : cfg.recurse = true) (hne : NoExclusions cfg)
    (h1 : WF t1 = true) (h2 : WF t2 = true) (rs rp : List Row)
    (hs : sequentialRun cfg p1 p2 t1 t2 = .ok rs)
    (hp : parallelRun cfg p1 p2 t1 t2 = .ok rp) :
    rs.Perm rp := by
  rw [sequentialRun] at hs
  rw [parallelRun] at hp
  cases hd : dir_cmp cfg p1 p2 t1 t2 with
  | error e => rw [hd] at hs; cases hs
  | ok out =>
    rw [hd] at hs hp
    simp only [] at hs hp
    cases hdr : drainQueue cfg out.queued with
    | error e => rw [hdr] at hs; cases hs
    | ok rs' =>
      rw [hdr] at hs
      simp only [] at hs
      cases hs
      cases htw : find_all_twins p1 p2 t1 t2 with
      | error e => rw [htw] at hp; cases hp
      | ok tw =>
        rw [htw] at hp
        simp only [] at hp
        cases hv : runPairs cfg tw with
        | error e => rw [hv] at hp; cases hp
        | ok v =>
          rw [hv] at hp
          simp only [] at hp
          cases hp
          obtain ⟨_, hpermS⟩ := drainQueue_ok_elim cfg
            ((out.queued.map (fun i => sizeOf i.t1)).sum) out.queued rs'
            (Nat.le_refl _) hdr
          obtain ⟨_, hpermP⟩ := par_forest cfg hrec hne (sizeOf t1) t1 t2
            p1 p2 tw v out (Nat.le_refl _) h1 h2 htw hv hd
          exact (List.Perm.append_left out.rows hpermS).trans
            (List.Perm.append_left out.rows hpermP).symm

/-- Configuration for the scheduler-equivalence witness: recursion on,
nothing excluded. -/
def cfgW : Config := { baseCfg with recurse := true }

/-- An empty readable directory. -/
def tEmpty : FSObj := .dir fm0 true []

/-- Witness for `seq_par_same_rows` at a concrete input. -/
theorem seq_par_same_rows_witness :
    cfgW.recurse = true
    ∧ NoExclusions cfgW
    ∧ WF tEmpty = true
    ∧ sequentialRun cfgW ["a"] ["b"] tEmpty tEmpty = .ok []
    ∧ parallelRun cfgW ["a"] ["b"] tEmpty tEmpty = .ok []
    ∧ (([] : List Row)).Perm [] := by
  have hrec : cfgW.recurse = true := rfl
  have hne : NoExclusions cfgW := ⟨rfl, rfl, rfl, rfl⟩
  have hwf : WF tEmpty = true := by
    rw [show tEmpty = FSObj.dir fm0 true [] from rfl, WF_dir_iff]
    refine ⟨rfl, by simp, by simp⟩
  have hroot : dir_cmp cfgW ["a"] ["b"] tEmpty tEmpty
      = .ok ⟨.full [] ["a"] ["b"], Stats.zero, []⟩ := rfl
  have hseq : sequentialRun cfgW ["a"] ["b"] tEmpty tEmpty = .ok [] := by
    unfold sequentialRun
    rw [hroot]
    simp only []
    rw [drainQueue]
    rfl
  have htwE : find_all_twins ["a"] ["b"] tEmpty tEmpty = .ok [] := by
    rw [find_all_twins_ok ["a"] ["b"] tEmpty tEmpty [] [] [] rfl rfl rfl
      (by intro d hd; cases hd)]
    exact twinsLoop_nil _ _ _ _ _
  have hpar : parallelRun cfgW ["a"] ["b"] tEmpty tEmpty = .ok [] := by
    unfold parallelRun
    rw [hroot]
    simp only []
    rw [htwE]
    simp only []
    rfl
  exact ⟨hrec, hne, hwf, hseq, hpar,
    seq_par_same_rows cfgW ["a"] ["b"] tEmpty tEmpty hrec hne hwf hwf [] []
      hseq hpar⟩

/-! ### Twin discovery: completeness and registry order -/

/-- A relative path of subdirectory names existing below a tree: each
step names a child that the unfiltered subdirectory listing (the same
one `find_all_twins` consults) presents at the previous level. -/
def isTwinPath (t : FSObj) : List String → Bool
  | [] => true
  | d :: rest =>
    match t with
    | .file _ _ => false
    | .dir _ _ es =>
      decide (d ∈ subNames es) && isTwinPath ((List.lookup d es).getD default) rest

/-- `isTwinPath` on the empty relative path. -/
theorem isTwinPath_nil (t : FSObj) : isTwinPath t [] = true := rfl

/-- `isTwinPath` on a directory and a non-empty relative path. -/
theorem isTwinPath_dir (m : FileMeta) (r : Bool) (es : List (String × FSObj))
    (d : String) (rest : List String) :
    isTwinPath (FSObj.dir m r es) (d :: rest)
      = (decide (d ∈ subNames es)
          && isTwinPath ((List.lookup d es).getD default) rest) := rfl

/-- Registry order: the earlier item is not a strict descendant of the
later one; a registry pairwise in this relation lists every parent pair
before each of its descendant pairs. -/
def notBelow (a b : QItem) : Prop :=
  ∀ ext : List String, ext ≠ [] → a.p1 ≠ b.p1 ++ ext

/-- The structural properties of a discovered twin registry: each item's
paths extend the roots by one shared non-empty relative path existing on
both sides, every such shared relative path is represented, and parents
precede descendants. -/
def twinShapes (p1 p2 : List String) (t1 t2 : FSObj) (tw : List QItem) : Prop :=
  (∀ i ∈ tw, ∃ rp, rp ≠ [] ∧ i.p1 = p1 ++ rp ∧ i.p2 = p2 ++ rp
      ∧ isTwinPath t1 rp = true ∧ isTwinPath t2 rp = true)
  ∧ (∀ rp : List String, rp ≠ [] → isTwinPath t1 rp = true →
      isTwinPath t2 rp = true →
      ∃ i ∈ tw, i.p1 = p1 ++ rp ∧ i.p2 = p2 ++ rp)
  ∧ tw.Pairwise notBelow

/-- Discovery fails as soon as the left listing fails. -/
theorem find_all_twins_err_left (p1 p2 : List String) (t1 t2 : FSObj)
    (e : Err) (h1 : gen_folder t1 = .error e) :
    find_all_twins p1 p2 t1 t2 = .error e := by
  rw [find_all_twins]
  split
  next e' heq => rw [h1] at heq; cases heq; rfl
  next n1' heq => rw [h1] at heq; cases heq

/-- Discovery fails as soon as the right listing fails. -/
theorem find_all_twins_err_right (p1 p2 : List String) (t1 t2 : FSObj)
    (n1 : List String) (e : Err) (h1 : gen_folder t1 = .ok n1)
    (h2 : gen_folder t2 = .error e) :
    find_all_twins p1 p2 t1 t2 = .error e := by
  rw [find_all_twins]
  split
  next e' heq => rw [h1] at heq; cases heq
  next n1' heq =>
    rw [h1] at heq
    cases heq
    split
    next e' heq2 => rw [h2] at heq2; cases heq2; rfl
    next n2' heq2 => rw [h2] at heq2; cases heq2

/-- A concatenation of per-name blocks is pairwise ordered when the
names are distinct, each block's items carry their name as the first
relative step, and each block is pairwise ordered on its own. -/
theorem pairwise_flatten_blocks (p1 : List String) :
    ∀ (names : List String) (blocks : String → List QItem),
      names.Nodup →
      (∀ d ∈ names, ∀ y ∈ blocks d, ∃ r : List String, y.p1 = p1 ++ d :: r) →
      (∀ d ∈ names, (blocks d).Pairwise notBelow) →
      ((names.map blocks).flatten).Pairwise notBelow := by
  intro names
  induction names with
  | nil => intro blocks _ _ _; simp
  | cons d rest ih =>
    intro blocks hnd hshape hblk
    rw [List.map_cons, List.flatten_cons, List.pairwise_append]
    refine ⟨hblk d (List.mem_cons_self _ _),
      ih blocks (List.nodup_cons.mp hnd).2
        (fun x hx => hshape x (List.mem_cons_of_mem _ hx))
        (fun x hx => hblk x (List.mem_cons_of_mem _ hx)), ?_⟩
    intro a ha b hb
    obtain ⟨lb, hlb, hbmem⟩ := List.mem_flatten.mp hb
    obtain ⟨d', hd', rfl⟩ := List.mem_map.mp hlb
    obtain ⟨ra, hra⟩ := hshape d (List.mem_cons_self _ _) a ha
    obtain ⟨rb, hrb⟩ := hshape d' (List.mem_cons_of_mem _ hd') b hbmem
    have hdne : d ≠ d' := fun h => (List.nodup_cons.mp hnd).1 (h ▸ hd')
    intro ext hext heq
    rw [hra, hrb, List.append_assoc, List.cons_append] at heq
    have hc := List.append_cancel_left heq
    injection hc with hc1 _
    exact hdne hc1

/-- Registry structure by strong induction on the left tree's size: a
successful discovery over well-formed trees is complete for shared
relative paths and lists parents before descendants. -/
theorem twins_shape :
    ∀ (N : Nat) (t1 t2 : FSObj) (p1 p2 : List String) (tw : List QItem),
      sizeOf t1 ≤ N → WF t1 = true → WF t2 = true →
      find_all_twins p1 p2 t1 t2 = .ok tw →
      twinShapes p1 p2 t1 t2 tw := by
  intro N
  induction N with
  | zero =>
    intro t1 _ _ _ _ hsize _ _ _
    exact absurd hsize (by have := FSObj.sizeOf_pos t1; omega)
  | succ N ih =>
    intro t1 t2 p1 p2 tw hsize hw1 hw2 htw
    cases t1 with
    | file m c =>
      rw [find_all_twins_err_left p1 p2 (FSObj.file m c) t2
        Err.notADirectory rfl] at htw
      cases htw
    | dir m1 r1 es1 =>
      obtain ⟨hr1, hnd1, hch1⟩ := (WF_dir_iff m1 r1 es1).mp hw1
      subst hr1
      cases t2 with
      | file m c =>
        rw [find_all_twins_err_right p1 p2 (FSObj.dir m1 true es1)
          (FSObj.file m c) (subNames es1) Err.notADirectory rfl rfl] at htw
        cases htw
      | dir m2 r2 es2 =>
        obtain ⟨hr2, hnd2, hch2⟩ := (WF_dir_iff m2 r2 es2).mp hw2
        subst hr2
        have hg1 : gen_folder (FSObj.dir m1 true es1) = .ok (subNames es1) := rfl
        have hg2 : gen_folder (FSObj.dir m2 true es2) = .ok (subNames es2) := rfl
        have hsproof : ∀ d ∈ sortNames ((subNames es1).filter
            (fun d => d ∈ subNames es2)),
            sizeOf (childD (FSObj.dir m1 true es1) d)
              < sizeOf (FSObj.dir m1 true es1) := by
          intro d hdm
          have hd1 : d ∈ (subNames es1).filter
              (fun x => decide (x ∈ subNames es2)) :=
            (List.perm_insertionSort _ _).mem_iff.mp hdm
          exact childD_size_of_gen_folder hg1 (List.mem_filter.mp hd1).1
        rw [find_all_twins_ok p1 p2 _ _ (subNames es1) (subNames es2) _
          hg1 hg2 rfl hsproof] at htw
        obtain ⟨hsubs, htwstruct⟩ := twinsLoop_ok_elim p1 p2 _ _ _ _ _ htw
        have memD : ∀ d ∈ sortNames ((subNames es1).filter
            (fun d => d ∈ subNames es2)),
            d ∈ subNames es1 ∧ d ∈ subNames es2 := by
          intro d hdmem
          have hdf : d ∈ (subNames es1).filter
              (fun x => decide (x ∈ subNames es2)) :=
            (List.perm_insertionSort _ _).mem_iff.mp hdmem
          exact ⟨(List.mem_filter.mp hdf).1, by
            have := (List.mem_filter.mp hdf).2
            simpa using this⟩
        have perD : ∀ d ∈ sortNames ((subNames es1).filter
            (fun d => d ∈ subNames es2)),
            twinShapes (p1 ++ [d]) (p2 ++ [d])
              (childD (FSObj.dir m1 true es1) d)
              (childD (FSObj.dir m2 true es2) d)
              (subTwins p1 p2 (FSObj.dir m1 true es1)
                (FSObj.dir m2 true es2) d) := by
          intro d hdmem
          obtain ⟨twd, htwd⟩ := except_isSome.mp (hsubs d hdmem)
          have hsubeq : subTwins p1 p2 (FSObj.dir m1 true es1)
              (FSObj.dir m2 true es2) d = twd := by
            rw [subTwins, htwd]; rfl
          obtain ⟨hdm1, hdm2⟩ := memD d hdmem
          obtain ⟨o1, ho1, _⟩ := (mem_subdir_names_iff hnd1 d).mp hdm1
          obtain ⟨o2, ho2, _⟩ := (mem_subdir_names_iff hnd2 d).mp hdm2
          have hc1 : childD (FSObj.dir m1 true es1) d = o1 := by
            show (List.lookup d es1).getD default = o1
            rw [ho1]; rfl
          have hc2 : childD (FSObj.dir m2 true es2) d = o2 := by
            show (List.lookup d es2).getD default = o2
            rw [ho2]; rfl
          have hwc1 : WF (childD (FSObj.dir m1 true es1) d) = true := by
            rw [hc1]; exact hch1 (d, o1) (lookup_mem ho1)
          have hwc2 : WF (childD (FSObj.dir m2 true es2) d) = true := by
            rw [hc2]; exact hch2 (d, o2) (lookup_mem ho2)
          have hszc : sizeOf (childD (FSObj.dir m1 true es1) d) ≤ N := by
            have := childD_size_of_gen_folder hg1 hdm1
            omega
          rw [hsubeq]
          exact ih _ _ _ _ _ hszc hwc1 hwc2 htwd
        refine ⟨?_, ?_, ?_⟩
        · intro i hi
          rw [htwstruct] at hi
          obtain ⟨lb, hlb, himem⟩ := List.mem_flatten.mp hi
          obtain ⟨d, hdmem, rfl⟩ := List.mem_map.mp hlb
          obtain ⟨hdm1, hdm2⟩ := memD d hdmem
          rcases List.mem_cons.mp himem with rfl | hsubmem
          · refine ⟨[d], by simp, rfl, rfl, ?_, ?_⟩
            · rw [isTwinPath_dir]
              simp [hdm1, isTwinPath_nil]
            · rw [isTwinPath_dir]
              simp [hdm2, isTwinPath_nil]
          · obtain ⟨rp, hrpne, hq1, hq2, hi1, hi2⟩ :=
              (perD d hdmem).1 i hsubmem
            refine ⟨d :: rp, by simp, ?_, ?_, ?_, ?_⟩
            · rw [hq1, List.append_assoc]; rfl
            · rw [hq2, List.append_assoc]; rfl
            · rw [isTwinPath_dir]
              simp only [Bool.and_eq_true, decide_eq_true_eq]
              exact ⟨hdm1, hi1⟩
            · rw [isTwinPath_dir]
              simp only [Bool.and_eq_true, decide_eq_true_eq]
              exact ⟨hdm2, hi2⟩
        · intro rp hrpne h1 h2
          cases rp with
          | nil => exact absurd rfl hrpne
          | cons d rest =>
            rw [isTwinPath_dir] at h1 h2
            simp only [Bool.and_eq_true, decide_eq_true_eq] at h1 h2
            obtain ⟨hdm1, hr1⟩ := h1
            obtain ⟨hdm2, hr2⟩ := h2
            have hdmem : d ∈ sortNames ((subNames es1).filter
                (fun x => x ∈ subNames es2)) :=
              (List.perm_insertionSort _ _).mem_iff.mpr
                (List.mem_filter.mpr ⟨hdm1, by simpa using hdm2⟩)
            cases rest with
            | nil =>
              refine ⟨mkTwin p1 p2 (FSObj.dir m1 true es1)
                (FSObj.dir m2 true es2) d, ?_, rfl, rfl⟩
              rw [htwstruct]
              exact List.mem_flatten.mpr
                ⟨_, List.mem_map.mpr ⟨d, hdmem, rfl⟩, List.mem_cons_self _ _⟩
            | cons r0 rs =>
              obtain ⟨i, himem, hq1, hq2⟩ := (perD d hdmem).2.1 (r0 :: rs)
                (by simp) hr1 hr2
              refine ⟨i, ?_, ?_, ?_⟩
              · rw [htwstruct]
                exact List.mem_flatten.mpr
                  ⟨_, List.mem_map.mpr ⟨d, hdmem, rfl⟩,
                    List.mem_cons_of_mem _ himem⟩
              · rw [hq1, List.append_assoc]; rfl
              · rw [hq2, List.append_assoc]; rfl
        · rw [htwstruct]
          apply pairwise_flatten_blocks p1 _ _ ?_ ?_ ?_
          · exact ((List.perm_insertionSort _ _).nodup_iff).mpr
              ((List.nodup_dedup _).filter _)
          · intro d hdmem y hy
            rcases List.mem_cons.mp hy with rfl | hysub
            · exact ⟨[], rfl⟩
            · obtain ⟨rp, _, hq1, _, _, _⟩ := (perD d hdmem).1 y hysub
              exact ⟨rp, by rw [hq1, List.append_assoc]; rfl⟩
          · intro d hdmem
            rw [List.pairwise_cons]
            constructor
            · intro y hysub ext hext heq
              obtain ⟨rp, hrpne, hq1, _, _, _⟩ := (perD d hdmem).1 y hysub
              have hlen := congrArg List.length heq
              rw [hq1] at hlen
              simp only [mkTwin, List.length_append, List.length_cons,
                List.length_nil] at hlen
              have hrl : 0 < rp.length := List.length_pos.mpr hrpne
              have hel : 0 < ext.length := List.length_pos.mpr hext
              omega
            · exact (perD d hdmem).2.2

/-- C8: on well-formed trees, a successful run of the twin discoverer
`find_all_twins` enumerates exactly the directory pairs sharing a
non-empty relative path that exists (by the unfiltered subdirectory
listing — the discoverer consults no exclusion option) below both
roots, and the registry order places every pair before all of its
descendant pairs: no item whose left path strictly extends a later
item's left path occurs before it. -/
theorem find_all_twins_complete_ordered (p1 p2 : List String)
    (t1 t2 : FSObj) (tw : List QItem) (hw1 : WF t1 = true)
    (hw2 : WF t2 = true) (htw : find_all_twins p1 p2 t1 t2 = .ok tw) :
    (∀ q1 q2 : List String,
      (∃ i ∈ tw, i.p1 = q1 ∧ i.p2 = q2)
        ↔ ∃ rp, rp ≠ [] ∧ q1 = p1 ++ rp ∧ q2 = p2 ++ rp
            ∧ isTwinPath t1 rp = true ∧ isTwinPath t2 rp = true)
    ∧ tw.Pairwise notBelow := by
  obtain ⟨h1, h2, h3⟩ := twins_shape (sizeOf t1) t1 t2 p1 p2 tw
    (Nat.le_refl _) hw1 hw2 htw
  refine ⟨?_, h3⟩
  intro q1 q2
  constructor
  · rintro ⟨i, hi, rfl, rfl⟩
    obtain ⟨rp, hne, hp1, hp2, ht1, ht2⟩ := h1 i hi
    exact ⟨rp, hne, hp1, hp2, ht1, ht2⟩
  · rintro ⟨rp, hne, rfl, rfl, ht1, ht2⟩
    obtain ⟨i, hi, hp1, hp2⟩ := h2 rp hne ht1 ht2
    exact ⟨i, hi, hp1, hp2⟩

/-- A readable directory holding one subdirectory, for the discovery
witness. -/
def wT : FSObj := .dir fm0 true [("s", tEmpty)]

/-- The registry discovered below a pair of `wT` roots. -/
def wTw : List QItem := [⟨["a", "s"], ["b", "s"], tEmpty, tEmpty⟩]

/-- Witness for `find_all_twins_complete_ordered` at a concrete input. -/
theorem find_all_twins_complete_ordered_witness :
    (∀ q1 q2 : List String,
      (∃ i ∈ wTw, i.p1 = q1 ∧ i.p2 = q2)
        ↔ ∃ rp, rp ≠ [] ∧ q1 = ["a"] ++ rp ∧ q2 = ["b"] ++ rp
            ∧ isTwinPath wT rp = true ∧ isTwinPath wT rp = true)
    ∧ wTw.Pairwise notBelow := by
  have hwe : WF tEmpty = true := by
    rw [show tEmpty = FSObj.dir fm0 true [] from rfl, WF_dir_iff]
    exact ⟨rfl, by simp, by simp⟩
  have hw : WF wT = true := by
    rw [show wT = FSObj.dir fm0 true [("s", tEmpty)] from rfl, WF_dir_iff]
    refine ⟨rfl, by simp, ?_⟩
    intro p hp
    rw [List.mem_singleton] at hp
    rw [hp]
    exact hwe
  have hg : gen_folder wT = .ok ["s"] := rfl
  have hce : childD wT "s" = tEmpty := rfl
  have hse : find_all_twins (["a"] ++ ["s"]) (["b"] ++ ["s"]) (childD wT "s")
      (childD wT "s") = .ok [] := by
    rw [hce, find_all_twins_ok (["a"] ++ ["s"]) (["b"] ++ ["s"]) tEmpty tEmpty
      [] [] [] rfl rfl rfl (by intro d hd; cases hd)]
    exact twinsLoop_nil _ _ _ _ _
  have hs : ∀ d ∈ ["s"], sizeOf (childD wT d) < sizeOf wT := by
    intro d hd
    exact childD_size_of_gen_folder hg hd
  have hfind : find_all_twins ["a"] ["b"] wT wT = .ok wTw := by
    rw [find_all_twins_ok ["a"] ["b"] wT wT ["s"] ["s"] ["s"] hg hg rfl hs,
      twinsLoop_cons, hse]
    simp only []
    rw [twinsLoop_nil]
    rfl
  exact find_all_twins_complete_ordered ["a"] ["b"] wT wT wTw hw hw hfind

end Dcmp
